import Mathlib

/-!
Verification development for the `sonar` event-log SDK: a shallow embedding of
the Keccak-256 signature hashing, the Solidity event-signature parser, the ABI
log decoder, the block-range poller, the circuit breaker, the exponential
backoff strategy, and the hex conversion helpers, together with theorems about
their behaviour.

Byte sequences are modelled as `List Nat` (each element < 256), machine words
as `Nat` with explicit reduction modulo `2 ^ 64` where the Go code narrows a
big integer to `uint64`, and Go strings as `List Char`.
-/

namespace SonarSpec

/-! ## Keccak-256 (the hash behind `golang.org/x/crypto/sha3.NewLegacyKeccak256`) -/

/-- `2 ^ 64`, the modulus for 64-bit lanes. -/
def w64 : Nat := 2 ^ 64

/-- Rotate a 64-bit word left by `k` bits (`k ≤ 63`). -/
def rotl64 (x k : Nat) : Nat :=
  ((x <<< k) % w64) ||| (x >>> (64 - k))

/-- Lane `(x, y)` of a Keccak state (25 lanes, lane `(x,y)` at index `x + 5y`). -/
def lane (s : List Nat) (x y : Nat) : Nat :=
  s.getD (x % 5 + 5 * (y % 5)) 0

/-- Keccak θ step. -/
def theta (s : List Nat) : List Nat :=
  let c := fun x => lane s x 0 ^^^ lane s x 1 ^^^ lane s x 2 ^^^ lane s x 3 ^^^ lane s x 4
  let d := fun x => c ((x + 4) % 5) ^^^ rotl64 (c ((x + 1) % 5)) 1
  (List.range 25).map (fun i => s.getD i 0 ^^^ d (i % 5))

/-- Keccak ρ rotation offsets, indexed by `x + 5y`. -/
def rhoOff : List Nat :=
  [0, 1, 62, 28, 27] ++ [36, 44, 6, 55, 20] ++ [3, 10, 43, 25, 39]
    ++ [41, 45, 15, 21, 8] ++ [18, 2, 61, 56, 14]

/-- Keccak ρ and π steps combined: `B[y, 2x+3y] = rot(A[x, y], r[x, y])`. -/
def rhoPi (s : List Nat) : List Nat :=
  (List.range 25).map (fun j =>
    let xp := j % 5
    let yp := j / 5
    let x := (xp + 3 * yp) % 5
    let y := xp
    rotl64 (lane s x y) (rhoOff.getD (x + 5 * y) 0))

/-- Keccak χ step: `A[x,y] = B[x,y] xor ((not B[x+1,y]) and B[x+2,y])`. -/
def chi (s : List Nat) : List Nat :=
  (List.range 25).map (fun j =>
    let x := j % 5
    let y := j / 5
    lane s x y ^^^ ((lane s (x + 1) y ^^^ (w64 - 1)) &&& lane s (x + 2) y))

/-- Keccak ι step: xor a round constant into lane `(0,0)`. -/
def iotaStep (rc : Nat) (s : List Nat) : List Nat :=
  match s with
  | [] => []
  | a :: rest => (a ^^^ rc) :: rest

/-- The 24 Keccak-f[1600] round constants. -/
def keccakRC : List Nat :=
  [1, 32898, 9223372036854808714,
   9223372039002292224, 32907, 2147483649,
   9223372039002292353, 9223372036854808585, 138,
   136, 2147516425, 2147483658,
   2147516555, 9223372036854775947, 9223372036854808713,
   9223372036854808579, 9223372036854808578, 9223372036854775936,
   32778, 9223372039002259466, 9223372039002292353,
   9223372036854808704, 2147483649, 9223372039002292232]

/-- The Keccak-f[1600] permutation: 24 rounds of θ, ρ, π, χ, ι. -/
def keccakF (s : List Nat) : List Nat :=
  keccakRC.foldl (fun st rc => iotaStep rc (chi (rhoPi (theta st)))) s

/-- Interpret a byte list as a little-endian natural number. -/
def leBytesToNat : List Nat → Nat
  | [] => 0
  | b :: rest => b + 256 * leBytesToNat rest

/-- The `count` low-order bytes of `n`, little-endian. -/
def natToLeBytes (n : Nat) : Nat → List Nat
  | 0 => []
  | c + 1 => n % 256 :: natToLeBytes (n / 256) c

/-- Legacy Keccak padding (`0x01 … 0x80`) to a multiple of the 136-byte rate. -/
def keccakPad (msg : List Nat) : List Nat :=
  let q := 136 - msg.length % 136
  if q = 1 then msg ++ [0x81]
  else msg ++ 0x01 :: List.replicate (q - 2) 0 ++ [0x80]

/-- Split a padded message (length a multiple of 136) into rate-sized blocks. -/
def rateBlocks (bs : List Nat) : List (List Nat) :=
  (List.range (bs.length / 136)).map (fun i => (bs.drop (136 * i)).take 136)

/-- Absorb one 136-byte block into the state and permute. -/
def absorbBlock (st : List Nat) (block : List Nat) : List Nat :=
  keccakF ((List.range 25).map (fun i =>
    if i < 17 then st.getD i 0 ^^^ leBytesToNat ((block.drop (8 * i)).take 8)
    else st.getD i 0))

/-- Keccak-256 of a byte sequence: 136-byte-rate sponge, 32-byte digest. -/
def keccak256 (msg : List Nat) : List Nat :=
  let st := (rateBlocks (keccakPad msg)).foldl absorbBlock (List.replicate 25 0)
  natToLeBytes (st.getD 0 0) 8 ++ natToLeBytes (st.getD 1 0) 8 ++
    natToLeBytes (st.getD 2 0) 8 ++ natToLeBytes (st.getD 3 0) 8

/-! ## Go string primitives used by `internal/abi/parser.go` -/

/-- Go's `unicode.IsSpace` on the Latin-1 range: `'\t'`, `'\n'`, `'\v'`, `'\f'`,
`'\r'`, `' '`, U+0085, U+00A0. -/
def goIsSpace (c : Char) : Bool :=
  c.toNat = 9 || c.toNat = 10 || c.toNat = 11 || c.toNat = 12 ||
    c.toNat = 13 || c.toNat = 32 || c.toNat = 0x85 || c.toNat = 0xA0

/-- Go's `strings.TrimSpace`: drop whitespace from both ends. -/
def trimSpace (s : List Char) : List Char :=
  ((s.dropWhile goIsSpace).reverse.dropWhile goIsSpace).reverse

/-- Go's `strings.IndexByte`: index of the first occurrence of `c0`, if any. -/
def indexOfChar (s : List Char) (c0 : Char) : Option Nat :=
  match s with
  | [] => none
  | c :: rest =>
    if c = c0 then some 0
    else (indexOfChar rest c0).map (· + 1)

/-- Go's `strings.LastIndexByte`: index of the last occurrence of `c0`, if any. -/
def lastIndexOfChar (s : List Char) (c0 : Char) : Option Nat :=
  (indexOfChar s.reverse c0).map (fun i => s.length - 1 - i)

/-- Accumulating worker for Go's `strings.Fields`. -/
def fieldsGo : List Char → List Char → List (List Char)
  | [], cur => if cur = [] then [] else [cur]
  | c :: rest, cur =>
    if goIsSpace c then
      if cur = [] then fieldsGo rest []
      else cur :: fieldsGo rest []
    else fieldsGo rest (cur ++ [c])

/-- Go's `strings.Fields`: split around runs of whitespace. -/
def fields (s : List Char) : List (List Char) := fieldsGo s []

/-! ## `internal/abi/parser.go`: signature parsing and hashing -/

/-- `abi.ParsedParam`: a single parameter in an event signature. -/
structure ParsedParam where
  typ : List Char
  name : List Char
  indexed : Bool
deriving DecidableEq, Repr

/-- `abi.ParsedEvent`: a parsed Solidity event signature. -/
structure ParsedEvent where
  name : List Char
  params : List ParsedParam
deriving DecidableEq, Repr

/-- `abi.EventSignatureHash`: Keccak-256 of the canonical signature bytes. -/
def eventSignatureHash (sig : List Char) : List Nat :=
  keccak256 (sig.map Char.toNat)

/-- Join a list of type strings with `','` (Go's `strings.Join(types, ",")`). -/
def joinComma : List (List Char) → List Char
  | [] => []
  | [t] => t
  | t :: rest => t ++ ',' :: joinComma rest

/-- `ParsedEvent.Canonical`: `name(type1,type2,…)`. -/
def canonical (p : ParsedEvent) : List Char :=
  p.name ++ '(' :: joinComma (p.params.map (·.typ)) ++ [')']

/-- Worker for `abi.splitParams`: split on commas at parenthesis depth 0. -/
def splitParamsGo : List Char → Int → List Char → List (List Char)
  | [], _, cur => [cur]
  | c :: rest, depth, cur =>
    if c = '(' then splitParamsGo rest (depth + 1) (cur ++ [c])
    else if c = ')' then splitParamsGo rest (depth - 1) (cur ++ [c])
    else if c = ',' then
      if depth = 0 then cur :: splitParamsGo rest depth []
      else splitParamsGo rest depth (cur ++ [c])
    else splitParamsGo rest depth (cur ++ [c])

/-- `abi.splitParams`: split a parameter list, respecting nested parentheses. -/
def splitParams (s : List Char) : List (List Char) := splitParamsGo s 0 []

/-- `abi.parseParam`: first token is the type; later tokens are `indexed` or the name. -/
def parseParam (s : List Char) : Option ParsedParam :=
  match fields s with
  | [] => none
  | t :: rest =>
    some (rest.foldl
      (fun p tok =>
        if tok = "indexed".data then { p with indexed := true }
        else { p with name := tok })
      { typ := t, name := [], indexed := false })

/-- The per-part loop of `ParseEventSignature`: trim, skip empties, parse. -/
def collectParams : List (List Char) → Option (List ParsedParam)
  | [] => some []
  | part :: rest =>
    let part := trimSpace part
    if part = [] then collectParams rest
    else
      match parseParam part, collectParams rest with
      | some p, some ps => some (p :: ps)
      | _, _ => none

/-- `abi.ParseEventSignature`: parse a Solidity event signature string. -/
def parseEventSignature (sig0 : List Char) : Option ParsedEvent :=
  let sig := trimSpace sig0
  match indexOfChar sig '(', lastIndexOfChar sig ')' with
  | some parenOpen, some parenClose =>
    if parenClose ≤ parenOpen then none
    else
      let name := trimSpace (sig.take parenOpen)
      if name = [] then none
      else
        let paramsStr := trimSpace ((sig.drop (parenOpen + 1)).take (parenClose - (parenOpen + 1)))
        if paramsStr = [] then some { name := name, params := [] }
        else
          match collectParams (splitParams paramsStr) with
          | some ps => some { name := name, params := ps }
          | none => none
  | _, _ => none

/-! ## `decoder/schema.go` and `decoder/abi.go`: the ABI decoder -/

/-- `decoder.ParamDef`: a single event parameter definition. -/
structure ParamDef where
  name : List Char
  typ : List Char
  indexed : Bool
deriving DecidableEq, Repr

/-- `decoder.EventDef`: a registered event definition. -/
structure EventDef where
  name : List Char
  signature : List Char
  sigHash : List Nat
  inputs : List ParamDef
deriving DecidableEq, Repr

/-- `ABIDecoder.registerParsed`: build the stored `EventDef` from a parse result. -/
def registerParsed (parsed : ParsedEvent) : EventDef :=
  let canon := canonical parsed
  { name := parsed.name
    signature := canon
    sigHash := eventSignatureHash canon
    inputs := parsed.params.map (fun p => { name := p.name, typ := p.typ, indexed := p.indexed }) }

/-- `decoder.Schema`: the signature-hash-indexed registry, as an association list
whose head shadows older entries (Go map overwrite semantics). -/
abbrev Schema := List EventDef

/-- `Schema.Add`. -/
def schemaAdd (s : Schema) (d : EventDef) : Schema := d :: s

/-- `Schema.Lookup`. -/
def schemaLookup (s : Schema) (h : List Nat) : Option EventDef :=
  List.find? (fun d => d.sigHash == h) s

/-- A decoded Go `interface{}` value produced by the decoder. -/
inductive GoValue where
  | vaddr (bytes : List Nat)
  | vbool (b : Bool)
  | vuint (n : Nat)
  | vint (i : Int)
  | vbytes (bs : List Nat)
  | vstr (bs : List Nat)
  | vhash (bs : List Nat)
  | vlist (xs : List GoValue)
  | vnil
deriving Repr

/-- A Go `map[string]interface{}` as an association list; the most recent
write is at the head and shadows older entries. -/
abbrev GoMap := List (List Char × GoValue)

/-- Map write `m[k] = v`. -/
def mapPut (m : GoMap) (k : List Char) (v : GoValue) : GoMap := (k, v) :: m

/-- Map read `m[k]`. -/
def mapGet (m : GoMap) (k : List Char) : Option GoValue :=
  (List.find? (fun kv => kv.1 == k) m).map (·.2)

/-- Big-endian bytes to `Nat` (`big.Int.SetBytes`). -/
def beNat (bs : List Nat) : Nat :=
  bs.foldl (fun acc b => acc * 256 + b) 0

/-- `decoder.decodeSigned`: 32-byte big-endian two's-complement. -/
def decodeSigned (word : List Nat) : Int :=
  let val : Int := beNat word
  if (word.headD 0).testBit 7 then val - 2 ^ 256 else val

/-- `decoder.parseBytesN`: extract `N` from `bytesN`, or 0 when malformed. -/
def parseBytesN (typ : List Char) : Nat :=
  if typ.take 5 = "bytes".data then
    let digits := typ.drop 5
    if digits = [] then 0
    else if digits.all (fun c => decide ('0' ≤ c) && decide (c ≤ '9')) then
      let n := digits.foldl (fun n c => n * 10 + (c.toNat - 48)) 0
      if n < 1 ∨ n > 32 then 0 else n
    else 0
  else 0

/-- `decoder.isDynamic`: `string`, `bytes`, `T[]`, or a tuple type. -/
def isDynamic (typ : List Char) : Bool :=
  if typ = "string".data then true
  else if typ = "bytes".data then true
  else if typ.drop (typ.length - 2) = "[]".data ∧ 2 ≤ typ.length then true
  else if typ.take 1 = "(".data then true
  else false

/-- `decoder.decodeStaticValue`: one static parameter from a 32-byte word. -/
def decodeStaticValue (typ : List Char) (word : List Nat) : GoValue :=
  if typ = "address".data then .vaddr ((word.drop 12).take 20)
  else if typ = "bool".data then .vbool (word.getD 31 0 ≠ 0)
  else if typ.take 4 = "uint".data then .vuint (beNat word)
  else if typ.take 3 = "int".data then .vint (decodeSigned word)
  else if typ.take 5 = "bytes".data then
    let n := parseBytesN typ
    if 0 < n ∧ n ≤ 32 then .vbytes (word.take n)
    else .vbytes word
  else .vbytes word

/-- `decoder.decodeDynamicBytes`: `[32-byte length][padded content]` at `offset`,
clamping a declared length that overruns the blob. -/
def decodeDynamicBytes (data : List Nat) (offset : Nat) (asString : Bool) : GoValue :=
  if offset + 32 > data.length then .vnil
  else
    let len0 := beNat ((data.drop offset).take 32) % w64
    let contentStart := offset + 32
    let len := if contentStart + len0 > data.length then data.length - contentStart else len0
    let content := (data.drop contentStart).take len
    if asString then .vstr content else .vbytes content

/-- The body of `decoder.decodeDynamicArray`, parameterised by the decoder used
for dynamic element types. -/
def decodeDynamicArrayGen (recur : List Char → List Nat → Nat → GoValue)
    (elemType : List Char) (data : List Nat) (offset : Nat) : GoValue :=
  if offset + 32 > data.length then .vnil
  else
    let count := beNat ((data.drop offset).take 32) % w64
    if count = 0 then .vlist []
    else
      let elemOffset := offset + 32
      if isDynamic elemType then
        .vlist ((List.range count).foldl (fun acc i =>
          let headPos := elemOffset + i * 32
          if headPos + 32 > data.length then acc
          else
            let relOffset := beNat ((data.drop headPos).take 32) % w64
            acc ++ [recur elemType data (elemOffset + relOffset)]) [])
      else
        .vlist ((List.range count).foldl (fun acc i =>
          let pos := elemOffset + i * 32
          if pos + 32 > data.length then acc
          else acc ++ [decodeStaticValue elemType ((data.drop pos).take 32)]) [])

/-- Fuelled worker for `decoder.decodeDynamicValue`; one unit of fuel is spent
per array nesting level, and the element type shrinks by two characters per
level, so `typ.length + 1` fuel always suffices. -/
def decodeDynamicValueF : Nat → List Char → List Nat → Nat → GoValue
  | 0, _, _, _ => .vnil
  | fuel + 1, typ, data, offset =>
    if offset + 32 > data.length then .vnil
    else if typ = "string".data then decodeDynamicBytes data offset true
    else if typ = "bytes".data then decodeDynamicBytes data offset false
    else if typ.drop (typ.length - 2) = "[]".data ∧ 2 ≤ typ.length then
      decodeDynamicArrayGen (decodeDynamicValueF fuel) (typ.take (typ.length - 2)) data offset
    else decodeDynamicBytes data offset false

/-- `decoder.decodeDynamicValue`: a dynamic value at a byte offset in the blob. -/
def decodeDynamicValue (typ : List Char) (data : List Nat) (offset : Nat) : GoValue :=
  decodeDynamicValueF (typ.length + 1) typ data offset

/-- `decoder.decodeDynamicArray`. -/
def decodeDynamicArray (elemType : List Char) (data : List Nat) (offset : Nat) : GoValue :=
  decodeDynamicArrayGen (fun t d o => decodeDynamicValueF (t.length + 1) t d o) elemType data offset

/-- The key an indexed parameter receives at topic index `t`
(`fmt.Sprintf("arg%d", topicIdx)` for unnamed parameters). -/
def iKey (p : ParamDef) (t : Nat) : List Char :=
  if p.name = [] then "arg".data ++ Nat.toDigits 10 t else p.name

/-- The key a non-indexed parameter receives at data position `d`
(`fmt.Sprintf("data%d", i)` for unnamed parameters). -/
def dKey (p : ParamDef) (d : Nat) : List Char :=
  if p.name = [] then "data".data ++ Nat.toDigits 10 d else p.name

/-- One head-section slot of `decoder.decodeDataParams` (index `i`): the name
actually used and the decoded value. -/
def dataSlot (data : List Nat) (param : ParamDef) (i : Nat) : List Char × GoValue :=
  let word := (data.drop (i * 32)).take 32
  let val :=
    if isDynamic param.typ then
      decodeDynamicValue param.typ data (beNat word % w64)
    else decodeStaticValue param.typ word
  (dKey param i, val)

/-- The loop of `decoder.decodeDataParams`: walk the head section one 32-byte
word per parameter, stopping at a truncated head, writing each value to both
the all-params map and the data-only map. -/
def decodeDataParamsGo (data : List Nat) :
    List ParamDef → Nat → GoMap → GoMap → GoMap × GoMap
  | [], _, out, dataOut => (out, dataOut)
  | param :: rest, i, out, dataOut =>
    if i * 32 + 32 > data.length then (out, dataOut)
    else
      let s := dataSlot data param i
      decodeDataParamsGo data rest (i + 1) (mapPut out s.1 s.2) (mapPut dataOut s.1 s.2)

/-- `decoder.decodeDataParams`. -/
def decodeDataParams (data : List Nat) (params : List ParamDef)
    (out dataOut : GoMap) : GoMap × GoMap :=
  decodeDataParamsGo data params 0 out dataOut

/-- `decoder.decodeTopicValue`: one indexed parameter from a 32-byte topic. -/
def decodeTopicValue (typ : List Char) (topic : List Nat) : GoValue :=
  if typ = "address".data then .vaddr ((topic.drop 12).take 20)
  else if typ = "bool".data then .vbool (topic.getD 31 0 ≠ 0)
  else if typ.take 4 = "uint".data then .vuint (beNat topic)
  else if typ.take 3 = "int".data then .vint (decodeSigned topic)
  else if typ.take 5 = "bytes".data then
    let n := parseBytesN typ
    if 0 < n ∧ n ≤ 32 then .vbytes (topic.take n)
    else .vhash topic
  else .vhash topic

/-- `event.Log`, restricted to the fields the decoder and poller read. -/
structure Log where
  topics : List (List Nat)
  data : List Nat
deriving DecidableEq, Repr

/-- `decoder.DecodedEvent`. -/
structure DecodedEvent where
  name : List Char
  signature : List Char
  params : GoMap
  indexed : GoMap
  data : GoMap
  raw : Log

/-- The errors `ABIDecoder.Decode` can return. -/
inductive DecodeErr where
  | noTopics
  | unknownSignature
deriving DecidableEq, Repr

/-- The indexed-parameter loop of `ABIDecoder.Decode`: walk the definition's
inputs with a topic cursor starting at 1, stopping when topics run out. -/
def decodeIndexedGo (topics : List (List Nat)) :
    List ParamDef → Nat → GoMap → GoMap → GoMap × GoMap
  | [], _, ind, par => (ind, par)
  | input :: rest, topicIdx, ind, par =>
    if input.indexed = false then decodeIndexedGo topics rest topicIdx ind par
    else if topicIdx ≥ topics.length then (ind, par)
    else
      let val := decodeTopicValue input.typ (topics.getD topicIdx [])
      decodeIndexedGo topics rest (topicIdx + 1)
        (mapPut ind (iKey input topicIdx) val) (mapPut par (iKey input topicIdx) val)

/-- `ABIDecoder.Decode`. -/
def decode (s : Schema) (log : Log) : Except DecodeErr DecodedEvent :=
  if log.topics = [] then .error .noTopics
  else
    match schemaLookup s (log.topics.headD []) with
    | none => .error .unknownSignature
    | some d =>
      let ip := decodeIndexedGo log.topics d.inputs 1 [] []
      let dataParams := d.inputs.filter (fun input => !input.indexed)
      let dp :=
        if dataParams.length > 0 ∧ log.data.length > 0 then
          decodeDataParams log.data dataParams ip.2 []
        else (ip.2, [])
      .ok { name := d.name
            signature := d.signature
            params := dp.1
            indexed := ip.1
            data := dp.2
            raw := log }

/-! ## `watcher/poller.go`: the block-range poller

One poll cycle is a pure function of the driver's responses for that cycle
(`LatestBlock`, `FetchLogs`), the cursor-save outcome, and the current `from`
block. -/

/-- `watcher.PollerConfig`. -/
structure PollerConfig where
  interval : Nat
  batchSize : Nat
  confirmations : Nat
deriving DecidableEq, Repr

/-- Which step of a poll cycle failed. -/
inductive PollErr where
  | latestBlockErr
  | fetchLogsErr
  | saveCursorErr
deriving DecidableEq, Repr

/-- The environment a single poll cycle runs against: the driver's
`LatestBlock` response, its `FetchLogs` response per block range, and whether
the cursor save succeeds. -/
structure PollEnv where
  latestBlock : Except Unit Nat
  fetchLogs : Nat → Nat → Except Unit (List Log)
  saveOk : Bool

/-- The observable outcome of one `Poller.poll` call: the new `fromBlock`,
the block number written to the cursor (if any), the logs emitted to the
event callback, and the error reported (if any). -/
structure PollOutcome where
  newFrom : Nat
  savedCursor : Option Nat
  emitted : List Log
  pollError : Option PollErr
deriving Repr

/-- `Poller.poll`: one cycle of the polling loop. -/
def poll (cfg : PollerConfig) (env : PollEnv) (fromBlock : Nat) : PollOutcome :=
  match env.latestBlock with
  | .error _ => ⟨fromBlock, none, [], some .latestBlockErr⟩
  | .ok latest =>
    if latest ≤ cfg.confirmations then ⟨fromBlock, none, [], none⟩
    else
      let safeBlock := latest - cfg.confirmations
      if fromBlock > safeBlock then ⟨fromBlock, none, [], none⟩
      else
        let toBlock0 := fromBlock + cfg.batchSize - 1
        let toBlock := if toBlock0 > safeBlock then safeBlock else toBlock0
        match env.fetchLogs fromBlock toBlock with
        | .error _ => ⟨fromBlock, none, [], some .fetchLogsErr⟩
        | .ok logs =>
          if env.saveOk then ⟨toBlock + 1, some toBlock, logs, none⟩
          else ⟨fromBlock, none, logs, some .saveCursorErr⟩

/-- The start-block computation of `Poller.Watch`: resume after the cursor
when it is positive, else start from the chain's safe head. -/
def startFrom (lastBlock : Nat) (latestRes : Except Unit Nat) (confirmations : Nat) :
    Except Unit Nat :=
  if lastBlock > 0 then .ok (lastBlock + 1)
  else
    match latestRes with
    | .error e => .error e
    | .ok latest => .ok (if latest > confirmations then latest - confirmations else 0)

/-! ## `retry/circuit.go`: the circuit breaker -/

/-- `retry.State`. -/
inductive CBState where
  | closed
  | opened
  | halfOpen
deriving DecidableEq, Repr

/-- `retry.CircuitBreaker`, with instants modelled as naturals. -/
structure CircuitBreaker where
  state : CBState
  failures : Nat
  threshold : Nat
  resetTimeout : Nat
  lastFailure : Nat
deriving DecidableEq, Repr

/-- `CircuitBreaker.Allow` at instant `now`: returns the admission decision
and the (possibly transitioned) breaker. -/
def allow (cb : CircuitBreaker) (now : Nat) : Bool × CircuitBreaker :=
  match cb.state with
  | .closed => (true, cb)
  | .opened =>
    if now - cb.lastFailure > cb.resetTimeout then (true, { cb with state := .halfOpen })
    else (false, cb)
  | .halfOpen => (true, cb)

/-- `CircuitBreaker.RecordSuccess`. -/
def recordSuccess (cb : CircuitBreaker) : CircuitBreaker :=
  { cb with failures := 0, state := .closed }

/-- `CircuitBreaker.RecordFailure` at instant `now`. -/
def recordFailure (cb : CircuitBreaker) (now : Nat) : CircuitBreaker :=
  let f := cb.failures + 1
  { cb with
    failures := f
    lastFailure := now
    state := if f ≥ cb.threshold then .opened else cb.state }

/-! ## `retry/backoff.go`: exponential backoff

`time.Duration` is an `int64` count of nanoseconds, modelled as `Int`; the
`float64` delay computation is modelled with exact rational arithmetic, and the
`time.Duration(delay)` conversion truncates toward zero. -/

/-- Truncate a rational toward zero (Go's float-to-int conversion). -/
def ratTrunc (q : ℚ) : Int := Int.tdiv q.num q.den

/-- `retry.Backoff`. -/
structure Backoff where
  maxAttempts : Int
  initialDelay : Int
  maxDelay : Int
  multiplier : ℚ

/-- `Backoff.Next`: the delay for the given attempt number and whether to
retry. -/
def backoffNext (b : Backoff) (attempt : Int) : Int × Bool :=
  if attempt > b.maxAttempts then (0, false)
  else
    let multiplier := if b.multiplier = 0 then 2 else b.multiplier
    let delay : ℚ := (b.initialDelay : ℚ) * multiplier ^ (attempt - 1)
    let d := ratTrunc delay
    let d := if d > b.maxDelay then b.maxDelay else d
    (d, true)

/-! ## `event/convert.go`: hex conversion helpers -/

/-- One hex digit's value, if valid (`encoding/hex`). -/
def hexDigitVal (c : Char) : Option Nat :=
  if '0' ≤ c ∧ c ≤ '9' then some (c.toNat - 48)
  else if 'a' ≤ c ∧ c ≤ 'f' then some (c.toNat - 97 + 10)
  else if 'A' ≤ c ∧ c ≤ 'F' then some (c.toNat - 65 + 10)
  else none

/-- `hex.DecodeString` on an even-length input: two hex digits per byte,
failing on any non-hex character. -/
def hexDecode : List Char → Option (List Nat)
  | [] => some []
  | [_] => none
  | a :: b :: rest =>
    match hexDigitVal a, hexDigitVal b, hexDecode rest with
    | some ha, some hb, some bs => some ((ha * 16 + hb) :: bs)
    | _, _, _ => none

/-- The prefix-stripping of `event.decodeHexBytes`: `TrimPrefix "0x"` then
`TrimPrefix "0X"`. -/
def trimHexPre (s : List Char) : List Char :=
  let s1 := if s.take 2 = "0x".data then s.drop 2 else s
  if s1.take 2 = "0X".data then s1.drop 2 else s1

/-- `event.decodeHexBytes`: strip the prefix, left-pad odd-length input with
`'0'`, and hex-decode. -/
def decodeHexBytes (s : List Char) : Option (List Nat) :=
  let s1 := trimHexPre s
  let s2 := if s1.length % 2 ≠ 0 then '0' :: s1 else s1
  hexDecode s2

/-- `event.HexToAddress`: keep the last 20 bytes, or left-pad with zeros. -/
def hexToAddress (s : List Char) : Option (List Nat) :=
  (decodeHexBytes s).map (fun b =>
    if b.length > 20 then b.drop (b.length - 20)
    else List.replicate (20 - b.length) 0 ++ b)

/-- `event.HexToHash`: keep the last 32 bytes, or left-pad with zeros. -/
def hexToHash (s : List Char) : Option (List Nat) :=
  (decodeHexBytes s).map (fun b =>
    if b.length > 32 then b.drop (b.length - 32)
    else List.replicate (32 - b.length) 0 ++ b)

/-! ## Theorems -/

/-- C3: a poller started with a positive cursor `last` resumes at `last + 1`,
and a fully successful poll cycle fetches `[from, min(from + batch − 1,
latest − confirmations)]`, saves the cursor to the upper bound, and advances
`from` to that bound plus one; concretely, cursor 100, `latest = 110`,
`batch_size = 5`, `confirmations = 0` yield cursor 105 and `from` 106 after
one cycle. -/
theorem poller_resume_and_cycle :
    (∀ (last : Nat) (latestRes : Except Unit Nat) (conf : Nat), 0 < last →
        startFrom last latestRes conf = .ok (last + 1))
    ∧ (∀ (cfg : PollerConfig) (env : PollEnv) (fb latest : Nat) (logs : List Log),
        1 ≤ cfg.batchSize → env.latestBlock = .ok latest →
        cfg.confirmations < latest → fb ≤ latest - cfg.confirmations →
        env.fetchLogs fb (min (fb + cfg.batchSize - 1) (latest - cfg.confirmations)) = .ok logs →
        env.saveOk = true →
        poll cfg env fb = ⟨min (fb + cfg.batchSize - 1) (latest - cfg.confirmations) + 1,
          some (min (fb + cfg.batchSize - 1) (latest - cfg.confirmations)), logs, none⟩)
    ∧ startFrom 100 (.ok 110) 0 = .ok 101
    ∧ poll ⟨2, 5, 0⟩ ⟨.ok 110, fun _ _ => .ok [], true⟩ 101 = ⟨106, some 105, [], none⟩ := by
  refine ⟨?_, ?_, rfl, rfl⟩
  · intro last latestRes conf h
    simp [startFrom, h]
  · intro cfg env fb latest logs hbs hl hconf hfb hfetch hsave
    unfold poll
    rw [hl]
    have h1 : ¬latest ≤ cfg.confirmations := by omega
    have h2 : ¬fb > latest - cfg.confirmations := by omega
    have hto : (if fb + cfg.batchSize - 1 > latest - cfg.confirmations
        then latest - cfg.confirmations else fb + cfg.batchSize - 1)
        = min (fb + cfg.batchSize - 1) (latest - cfg.confirmations) := by
      rw [min_def]; split_ifs <;> omega
    simp only [if_neg h1, if_neg h2, hto]
    rw [hfetch]
    simp [hsave]

/-- Witness for C3: the successful-cycle clause at the concrete scenario. -/
theorem poller_resume_and_cycle_witness :
    poll ⟨2, 5, 0⟩ ⟨.ok 110, fun _ _ => .ok [], true⟩ 101 = ⟨106, some 105, [], none⟩ :=
  poller_resume_and_cycle.2.1 ⟨2, 5, 0⟩ ⟨.ok 110, fun _ _ => .ok [], true⟩ 101 110 []
    (by decide) rfl (by decide) (by decide) rfl rfl

/-- C6: a poll cycle that reports an error (latest-block, fetch-logs, or
cursor-save failure) leaves `from` unchanged, and `from` advances — always to
the saved bound plus one — exactly when the cursor save of that cycle
succeeds. -/
theorem poll_advance_iff_save (cfg : PollerConfig) (env : PollEnv) (fb : Nat) :
    ((poll cfg env fb).pollError.isSome → (poll cfg env fb).newFrom = fb)
    ∧ ((poll cfg env fb).savedCursor = none → (poll cfg env fb).newFrom = fb)
    ∧ (∀ t, (poll cfg env fb).savedCursor = some t →
        (poll cfg env fb).newFrom = t + 1 ∧ (poll cfg env fb).pollError = none
          ∧ env.saveOk = true)
    ∧ (env.saveOk = false → (poll cfg env fb).newFrom = fb) := by
  unfold poll
  cases hl : env.latestBlock with
  | error e => simp
  | ok latest =>
    dsimp only
    split
    · simp
    · split
      · simp
      · split
        · simp
        · split
          next hs => simp [hs]
          next hs => simp at hs; simp [hs]

/-- Witness for C6: a failing `LatestBlock` call leaves `from` at 7. -/
theorem poll_advance_iff_save_witness :
    (poll ⟨2, 5, 0⟩ ⟨.error (), fun _ _ => .ok [], true⟩ 7).newFrom = 7 :=
  (poll_advance_iff_save ⟨2, 5, 0⟩ ⟨.error (), fun _ _ => .ok [], true⟩ 7).1 (by rfl)

/-- C4: the claim says the half-open state admits exactly one probe, but the
code admits every call while half-open: after three failures trip the breaker
and the reset timeout admits the first (transitioning) probe, a second
`Allow` before any outcome is recorded still returns `true` and leaves the
state `halfOpen`. -/
theorem halfOpen_admits_second_probe :
    (recordFailure (recordFailure (recordFailure ⟨.closed, 0, 3, 500, 0⟩ 10) 20) 30).state
        = .opened
    ∧ (allow (recordFailure (recordFailure (recordFailure ⟨.closed, 0, 3, 500, 0⟩ 10) 20) 30)
        531).1 = true
    ∧ (allow (recordFailure (recordFailure (recordFailure ⟨.closed, 0, 3, 500, 0⟩ 10) 20) 30)
        531).2.state = .halfOpen
    ∧ (allow (allow (recordFailure (recordFailure (recordFailure ⟨.closed, 0, 3, 500, 0⟩ 10) 20)
        30) 531).2 532).1 = true
    ∧ (allow (allow (recordFailure (recordFailure (recordFailure ⟨.closed, 0, 3, 500, 0⟩ 10) 20)
        30) 531).2 532).2.state = .halfOpen := by
  decide

/-- C8: `Backoff.Next` refuses to retry exactly when the attempt number
exceeds `MaxAttempts`; otherwise, for a non-zero multiplier and an
integer-valued product, the returned delay is
`min(initial × multiplier^(n−1), max_delay)`. -/
theorem backoff_next_spec (b : Backoff) (n : Int) (_hn : 1 ≤ n) :
    ((backoffNext b n).2 = false ↔ b.maxAttempts < n)
    ∧ (n ≤ b.maxAttempts → b.multiplier ≠ 0 →
        ((b.initialDelay : ℚ) * b.multiplier ^ (n - 1)).den = 1 →
        ((backoffNext b n).1 : ℚ) =
          min ((b.initialDelay : ℚ) * b.multiplier ^ (n - 1)) ((b.maxDelay : ℚ))) := by
  constructor
  · unfold backoffNext
    split
    next h => simpa using by omega
    next h => simpa using by omega
  · intro h1 h2 hden
    unfold backoffNext
    rw [if_neg (by omega)]
    dsimp only
    rw [if_neg h2]
    have hqnum : ((((b.initialDelay : ℚ) * b.multiplier ^ (n - 1)).num : ℚ))
        = (b.initialDelay : ℚ) * b.multiplier ^ (n - 1) := by
      conv_rhs => rw [← Rat.num_div_den ((b.initialDelay : ℚ) * b.multiplier ^ (n - 1))]
      rw [hden]
      push_cast
      ring
    have htr : ratTrunc ((b.initialDelay : ℚ) * b.multiplier ^ (n - 1))
        = ((b.initialDelay : ℚ) * b.multiplier ^ (n - 1)).num := by
      unfold ratTrunc
      rw [hden]
      simp
    rw [htr]
    split
    next hgt =>
      have hlt : (b.maxDelay : ℚ) < (b.initialDelay : ℚ) * b.multiplier ^ (n - 1) := by
        rw [← hqnum]
        exact_mod_cast hgt
      rw [min_eq_right hlt.le]
    next hle =>
      have hge : (b.initialDelay : ℚ) * b.multiplier ^ (n - 1) ≤ (b.maxDelay : ℚ) := by
        rw [← hqnum]
        exact_mod_cast (by omega : ((b.initialDelay : ℚ) * b.multiplier ^ (n - 1)).num ≤ b.maxDelay)
      rw [hqnum, min_eq_left hge]

/-- Witness for C8: `maxAttempts = 5`, `initialDelay = 4`, `maxDelay = 30`,
`multiplier = 2`, attempt 3. -/
theorem backoff_next_spec_witness :
    (((backoffNext ⟨5, 4, 30, 2⟩ 3).2 = false ↔ (5 : Int) < 3)
      ∧ ((3 : Int) ≤ 5 → (2 : ℚ) ≠ 0 →
          (((4 : Int) : ℚ) * (2 : ℚ) ^ ((3 : Int) - 1)).den = 1 →
          (((backoffNext ⟨5, 4, 30, 2⟩ 3).1 : ℚ)) =
            min (((4 : Int) : ℚ) * (2 : ℚ) ^ ((3 : Int) - 1)) (((30 : Int) : ℚ)))) :=
  backoff_next_spec ⟨5, 4, 30, 2⟩ 3 (by norm_num)

/-- An even-length string of hex digits decodes to half as many bytes. -/
theorem hexDecode_isSome : ∀ s : List Char,
    s.all (fun c => (hexDigitVal c).isSome) = true → s.length % 2 = 0 →
    ∃ bs, hexDecode s = some bs ∧ bs.length = s.length / 2
  | [], _, _ => ⟨[], rfl, rfl⟩
  | [_], _, hp => by simp at hp
  | a :: b :: rest, h, hp => by
    simp only [List.all_cons, Bool.and_eq_true] at h
    obtain ⟨ha, hb, hrest⟩ := h
    obtain ⟨bs, hbs, hlen⟩ := hexDecode_isSome rest hrest (by simp at hp ⊢; omega)
    obtain ⟨va, hva⟩ := Option.isSome_iff_exists.mp ha
    obtain ⟨vb, hvb⟩ := Option.isSome_iff_exists.mp hb
    refine ⟨(va * 16 + vb) :: bs, ?_, ?_⟩
    · simp [hexDecode, hva, hvb, hbs]
    · simp only [List.length_cons]
      omega

/-- A failed hex decode pinpoints a non-hex character. -/
theorem hexDecode_none : ∀ s : List Char, hexDecode s = none → s.length % 2 = 0 →
    ∃ c ∈ s, (hexDigitVal c).isSome = false
  | [], h, _ => by simp [hexDecode] at h
  | [_], _, hp => by simp at hp
  | a :: b :: rest, h, hp => by
    by_cases ha : (hexDigitVal a).isSome
    · by_cases hb : (hexDigitVal b).isSome
      · obtain ⟨va, hva⟩ := Option.isSome_iff_exists.mp ha
        obtain ⟨vb, hvb⟩ := Option.isSome_iff_exists.mp hb
        cases hr : hexDecode rest with
        | none =>
          obtain ⟨c, hc, hcbad⟩ := hexDecode_none rest hr (by simp at hp; omega)
          exact ⟨c, List.mem_cons_of_mem _ (List.mem_cons_of_mem _ hc), hcbad⟩
        | some bs =>
          rw [show hexDecode (a :: b :: rest) = some ((va * 16 + vb) :: bs) from by
            simp [hexDecode, hva, hvb, hr]] at h
          exact absurd h (by simp)
      · exact ⟨b, List.mem_cons_of_mem _ (List.mem_cons_self _ _), by simpa using hb⟩
    · exact ⟨a, List.mem_cons_self _ _, by simpa using ha⟩

/-- The even-length padding step of `decodeHexBytes` yields even length. -/
theorem padEven_length (s : List Char) :
    (if s.length % 2 ≠ 0 then '0' :: s else s).length % 2 = 0 := by
  split
  next h => simp only [List.length_cons]; omega
  next h => omega

/-- Every character of `trimHexPre s` is a character of `s`. -/
theorem trimHexPre_subset (s : List Char) : trimHexPre s ⊆ s := by
  unfold trimHexPre
  dsimp only
  split <;> split <;>
    first
      | exact fun _ hc => List.drop_subset _ _ (List.drop_subset _ _ hc)
      | exact fun _ hc => List.drop_subset _ _ hc
      | exact fun _ hc => hc

/-- C10: whenever the input (after stripping an optional `0x`/`0X` prefix)
consists of hex digits, `HexToAddress` and `HexToHash` succeed with 20- and
32-byte results; long decodes keep only the last 20 (resp. 32) bytes and
short ones are left-padded with zeros; a failure implies a non-hex character
in the input. -/
theorem hex_convert_spec :
    (∀ s : List Char, (trimHexPre s).all (fun c => (hexDigitVal c).isSome) = true →
        ∃ a h, hexToAddress s = some a ∧ a.length = 20
          ∧ hexToHash s = some h ∧ h.length = 32)
    ∧ (∀ (s : List Char) (b : List Nat), decodeHexBytes s = some b →
        hexToAddress s = some (if b.length > 20 then b.drop (b.length - 20)
          else List.replicate (20 - b.length) 0 ++ b)
        ∧ hexToHash s = some (if b.length > 32 then b.drop (b.length - 32)
          else List.replicate (32 - b.length) 0 ++ b))
    ∧ (∀ s : List Char, hexToAddress s = none →
        ∃ c ∈ s, (hexDigitVal c).isSome = false)
    ∧ (∀ s : List Char, hexToHash s = none →
        ∃ c ∈ s, (hexDigitVal c).isSome = false) := by
  have hdecode_none : ∀ s : List Char, decodeHexBytes s = none →
      ∃ c ∈ s, (hexDigitVal c).isSome = false := by
    intro s hnone
    simp only [decodeHexBytes] at hnone
    obtain ⟨c, hc, hcbad⟩ :=
      hexDecode_none _ hnone (padEven_length (trimHexPre s))
    have hc0 : c ≠ '0' := by
      intro he
      rw [he] at hcbad
      simp [hexDigitVal] at hcbad
    have hcs : c ∈ trimHexPre s := by
      by_cases hodd : (trimHexPre s).length % 2 ≠ 0
      · rw [if_pos hodd] at hc
        rcases List.mem_cons.mp hc with he | hm
        · exact absurd he hc0
        · exact hm
      · rwa [if_neg hodd] at hc
    exact ⟨c, trimHexPre_subset s hcs, hcbad⟩
  have hdecode_some : ∀ s : List Char,
      (trimHexPre s).all (fun c => (hexDigitVal c).isSome) = true →
      ∃ bs, decodeHexBytes s = some bs := by
    intro s hall
    unfold decodeHexBytes
    have hall2 : (if (trimHexPre s).length % 2 ≠ 0 then '0' :: trimHexPre s
        else trimHexPre s).all (fun c => (hexDigitVal c).isSome) = true := by
      split
      · simpa [hexDigitVal] using hall
      · exact hall
    obtain ⟨bs, hbs, _⟩ := hexDecode_isSome _ hall2 (padEven_length (trimHexPre s))
    exact ⟨bs, hbs⟩
  refine ⟨?_, ?_, ?_, ?_⟩
  · intro s hall
    obtain ⟨bs, hbs⟩ := hdecode_some s hall
    refine ⟨if bs.length > 20 then bs.drop (bs.length - 20)
        else List.replicate (20 - bs.length) 0 ++ bs,
      if bs.length > 32 then bs.drop (bs.length - 32)
        else List.replicate (32 - bs.length) 0 ++ bs,
      by simp [hexToAddress, hbs], ?_, by simp [hexToHash, hbs], ?_⟩
    · split
      next hlen => simp; omega
      next hlen => simp; omega
    · split
      next hlen => simp; omega
      next hlen => simp; omega
  · intro s b hb
    exact ⟨by simp [hexToAddress, hb], by simp [hexToHash, hb]⟩
  · intro s hnone
    apply hdecode_none
    unfold hexToAddress at hnone
    exact Option.map_eq_none.mp hnone
  · intro s hnone
    apply hdecode_none
    unfold hexToHash at hnone
    exact Option.map_eq_none.mp hnone

/-- Witness for C10: `"0x0A"` converts to the zero-padded 20- and 32-byte
values. -/
theorem hex_convert_spec_witness :
    ∃ a h, hexToAddress "0x0A".data = some a ∧ a.length = 20
      ∧ hexToHash "0x0A".data = some h ∧ h.length = 32 :=
  hex_convert_spec.1 "0x0A".data (by decide)

/-- The ERC-20 `Transfer` text signature of the spec's first scenario. -/
def transferSigText : List Char :=
  "Transfer(address indexed from, address indexed to, uint256 value)".data

/-- The expected `Transfer` signature hash
`0xddf252ad1be2c89b69c2b068fc378daa952ba7f163c4a11628f55a4df523b3ef`. -/
def transferHashBytes : List Nat :=
  [221, 242, 82, 173, 27, 226, 200, 155, 105, 194, 176, 104, 252, 55, 141, 170,
   149, 43, 167, 241, 99, 196, 161, 22, 40, 245, 90, 77, 245, 35, 179, 239]

set_option maxRecDepth 100000 in
/-- C1: every definition stored by `registerParsed` (the single funnel of the
text-signature and JSON registration paths) carries
`sigHash = keccak256(canonical signature)`, the canonical signature is the
name plus comma-joined parameter types with no names and no whitespace, and
registering the indexed `Transfer` text signature yields canonical
`Transfer(address,address,uint256)` with the signature hash
`0xddf252ad…b3ef`. -/
theorem registered_sigHash_is_keccak :
    (∀ p : ParsedEvent,
        (registerParsed p).sigHash = eventSignatureHash ((registerParsed p).signature)
        ∧ (registerParsed p).signature = canonical p)
    ∧ (parseEventSignature transferSigText).map (fun p => canonical p)
        = some "Transfer(address,address,uint256)".data
    ∧ (parseEventSignature transferSigText).map (fun p => (registerParsed p).sigHash)
        = some transferHashBytes :=
  ⟨fun _ => ⟨rfl, rfl⟩, by decide, by decide⟩

/-- Default parameter used for positional indexing. -/
def dflParam : ParamDef := ⟨[], [], false⟩

/-- The ordered sequence of map writes performed by `decodeDataParams` when no
head word is truncated: one slot per parameter, positionally. -/
def dataWrites (data : List Nat) (params : List ParamDef) (i : Nat) :
    List (List Char × GoValue) :=
  (List.range params.length).map (fun j => dataSlot data (params.getD j dflParam) (i + j))

theorem dataWrites_nil (data : List Nat) (i : Nat) : dataWrites data [] i = [] := rfl

theorem dataWrites_cons (data : List Nat) (p : ParamDef) (rest : List ParamDef) (i : Nat) :
    dataWrites data (p :: rest) i = dataSlot data p i :: dataWrites data rest (i + 1) := by
  unfold dataWrites
  rw [List.length_cons, List.range_succ_eq_map, List.map_cons, List.map_map]
  simp only [List.getD_cons_zero, Nat.add_zero]
  congr 1
  apply List.map_congr_left
  intro j _
  simp only [Function.comp_apply, List.getD_cons_succ]
  congr 1
  omega

/-- When the whole head section fits in the blob, `decodeDataParamsGo` writes
exactly one slot per parameter onto both accumulators. -/
theorem decodeDataParamsGo_eq (data : List Nat) :
    ∀ (params : List ParamDef) (i : Nat) (out dataOut : GoMap),
    32 * i + 32 * params.length ≤ data.length →
    decodeDataParamsGo data params i out dataOut
      = ((dataWrites data params i).reverse ++ out, (dataWrites data params i).reverse ++ dataOut)
  | [], i, out, dataOut, _ => by simp [decodeDataParamsGo, dataWrites_nil]
  | p :: rest, i, out, dataOut, h => by
    have hlen : 32 * (i + 1) + 32 * rest.length ≤ data.length := by
      simp only [List.length_cons] at h; omega
    have hguard : ¬i * 32 + 32 > data.length := by
      simp only [List.length_cons] at h; omega
    rw [decodeDataParamsGo, if_neg hguard,
      decodeDataParamsGo_eq data rest (i + 1) _ _ hlen, dataWrites_cons]
    simp [mapPut, List.append_assoc]

/-- `decodeDataParamsGo` only prepends (identical) writes onto its two
accumulators. -/
theorem decodeDataParamsGo_shape (data : List Nat) :
    ∀ (params : List ParamDef) (i : Nat) (out dataOut : GoMap),
    ∃ W : List (List Char × GoValue),
      decodeDataParamsGo data params i out dataOut = (W ++ out, W ++ dataOut)
  | [], _, out, dataOut => ⟨[], by simp [decodeDataParamsGo]⟩
  | p :: rest, i, out, dataOut => by
    rw [decodeDataParamsGo]
    split
    · exact ⟨[], by simp⟩
    · obtain ⟨W, hW⟩ := decodeDataParamsGo_shape data rest (i + 1)
        (mapPut out (dataSlot data p i).1 (dataSlot data p i).2)
        (mapPut dataOut (dataSlot data p i).1 (dataSlot data p i).2)
      refine ⟨W ++ [dataSlot data p i], ?_⟩
      rw [show (W ++ [dataSlot data p i]) ++ out = W ++ dataSlot data p i :: out from by simp,
        show (W ++ [dataSlot data p i]) ++ dataOut = W ++ dataSlot data p i :: dataOut from by
          simp]
      exact hW

/-- Spec-side head/tail layout (§4.2 of the spec): the head is one 32-byte
word per non-indexed parameter; a static parameter decodes inline from its
head word; a dynamic parameter's head word is a byte offset into the blob at
which a 32-byte length is read, followed by that many content bytes. -/
def specHeadTailValue (data : List Nat) (p : ParamDef) (i : Nat) : GoValue :=
  let word := (data.drop (32 * i)).take 32
  if isDynamic p.typ then
    let off := beNat word
    let len := beNat ((data.drop off).take 32)
    let content := (data.drop (off + 32)).take len
    if p.typ = "string".data then .vstr content else .vbytes content
  else decodeStaticValue p.typ word

/-- 32-byte big-endian word of a natural number. -/
def word32 (n : Nat) : List Nat :=
  (List.range 32).map (fun i => n / 256 ^ (31 - i) % 256)

/-- The registered `Note(uint256 id, string msg)` definition. -/
def noteDef : Option EventDef :=
  (parseEventSignature "Note(uint256 id, string msg)".data).map registerParsed

/-- The spec's scenario-2 data blob:
`[id=7 in 32B] [offset=0x40 in 32B] [len=5 in 32B] ["hello" padded to 32B]`. -/
def noteData : List Nat :=
  word32 7 ++ word32 0x40 ++ word32 5 ++ ("hello".data.map Char.toNat ++ List.replicate 27 0)

/-- A log carrying the `Note` signature hash and the scenario-2 blob. -/
def noteLog : Log := { topics := [(noteDef.map (·.sigHash)).getD []], data := noteData }

/-- A schema with `Note(uint256 id, string msg)` registered. -/
def noteSchema : Schema := (noteDef.map (schemaAdd [])).getD []

set_option maxRecDepth 100000 in
/-- C2: decoding the data blob follows the EVM head/tail layout — one 32-byte
head word per non-indexed parameter, static values inline, dynamic
(`string`/`bytes`) values read through the head word as a byte offset to a
32-byte length plus content — and decoding the registered
`Note(uint256 id, string msg)` log with blob
`[7][0x40][5]["hello" padded]` yields `params.id = 7` and
`params.msg = "hello"`. -/
theorem data_head_tail_layout :
    (∀ (data : List Nat) (params : List ParamDef),
      32 * params.length ≤ data.length →
      (∀ p ∈ params, isDynamic p.typ = true → p.typ = "string".data ∨ p.typ = "bytes".data) →
      (∀ j, j < params.length → isDynamic ((params.getD j dflParam).typ) = true →
        beNat ((data.drop (32 * j)).take 32) < w64
        ∧ beNat ((data.drop (beNat ((data.drop (32 * j)).take 32))).take 32) < w64
        ∧ beNat ((data.drop (32 * j)).take 32) + 32
            + beNat ((data.drop (beNat ((data.drop (32 * j)).take 32))).take 32) ≤ data.length) →
      ∀ j, j < params.length →
        ((decodeDataParams data params [] []).2.reverse.map (·.2))[j]?
          = some (specHeadTailValue data (params.getD j dflParam) j))
    ∧ (decode noteSchema noteLog).map
        (fun ev => (mapGet ev.params "id".data, mapGet ev.params "msg".data))
      = .ok (some (.vuint 7), some (.vstr [104, 101, 108, 108, 111])) := by
  constructor
  · intro data params h32 hstr hdyn j hj
    unfold decodeDataParams
    rw [decodeDataParamsGo_eq data params 0 [] [] (by omega)]
    simp only [List.append_nil, List.reverse_reverse]
    rw [List.getElem?_map]
    have hw : (dataWrites data params 0)[j]?
        = some (dataSlot data (params.getD j dflParam) j) := by
      unfold dataWrites
      rw [List.getElem?_map, List.getElem?_range hj]
      exact congrArg some
        (congrArg (dataSlot data (params.getD j dflParam)) (Nat.zero_add j))
    rw [hw]
    refine congrArg some ?_
    show (dataSlot data (params.getD j dflParam) j).2
        = specHeadTailValue data (params.getD j dflParam) j
    unfold dataSlot specHeadTailValue
    dsimp only
    have hword : (data.drop (j * 32)).take 32 = (data.drop (32 * j)).take 32 := by
      rw [Nat.mul_comm]
    by_cases hdynj : isDynamic ((params.getD j dflParam).typ) = true
    · obtain ⟨hoff, hlen, hbound⟩ := hdyn j hj hdynj
      simp only [hword, hdynj, if_true]
      rw [Nat.mod_eq_of_lt hoff]
      have hmem : params.getD j dflParam ∈ params := by
        rw [List.getD_eq_getElem params dflParam hj]
        exact List.getElem_mem hj
      rcases hstr _ hmem hdynj with hty | hty
      · rw [hty]
        unfold decodeDynamicValue
        rw [decodeDynamicValueF]
        rw [if_neg (by omega), if_pos rfl]
        unfold decodeDynamicBytes
        dsimp only
        rw [if_neg (by omega), if_pos rfl, Nat.mod_eq_of_lt hlen, if_neg (by omega)]
        simp
      · rw [hty]
        unfold decodeDynamicValue
        rw [decodeDynamicValueF]
        rw [if_neg (by omega), if_neg (by decide), if_pos rfl]
        unfold decodeDynamicBytes
        dsimp only
        rw [if_neg (by omega), if_neg (by decide), Nat.mod_eq_of_lt hlen, if_neg (by omega)]
        simp
    · simp only [hword]
      rw [if_neg hdynj, if_neg hdynj]
  · rfl

/-- Witness for C2: a single static `uint256` head word holding 7 decodes
inline to 7. -/
theorem data_head_tail_layout_witness :
    ((decodeDataParams (word32 7) [⟨"id".data, "uint256".data, false⟩] [] []).2.reverse.map
        (·.2))[0]?
      = some (specHeadTailValue (word32 7) ⟨"id".data, "uint256".data, false⟩ 0) :=
  data_head_tail_layout.1 (word32 7) [⟨"id".data, "uint256".data, false⟩]
    (by decide) (by decide) (by decide) 0 (by decide)

/-! ## C7 infrastructure: decoded key sets -/

/-- The keys of a decoder map, newest write first. -/
def decodedKeys (m : GoMap) : List (List Char) := m.map (·.1)

/-- All indexed-parameter keys of a definition, walking the topic counter. -/
def iNames : List ParamDef → Nat → List (List Char)
  | [], _ => []
  | p :: rest, t => if p.indexed then iKey p t :: iNames rest (t + 1) else iNames rest t

/-- All non-indexed-parameter keys of a definition, walking the data counter. -/
def dNames : List ParamDef → Nat → List (List Char)
  | [], _ => []
  | p :: rest, d => if p.indexed then dNames rest d else dKey p d :: dNames rest (d + 1)

/-- Every parameter's key, walking both counters. -/
def paramKeys : List ParamDef → Nat → Nat → List (List Char)
  | [], _, _ => []
  | p :: rest, t, d =>
    if p.indexed then iKey p t :: paramKeys rest (t + 1) d
    else dKey p d :: paramKeys rest t (d + 1)

theorem iNames_cons_true {p : ParamDef} {rest : List ParamDef} {t : Nat}
    (hp : p.indexed = true) :
    iNames (p :: rest) t = iKey p t :: iNames rest (t + 1) := by simp [iNames, hp]

theorem iNames_cons_false {p : ParamDef} {rest : List ParamDef} {t : Nat}
    (hp : p.indexed = false) :
    iNames (p :: rest) t = iNames rest t := by simp [iNames, hp]

theorem dNames_cons_true {p : ParamDef} {rest : List ParamDef} {d : Nat}
    (hp : p.indexed = true) :
    dNames (p :: rest) d = dNames rest d := by simp [dNames, hp]

theorem dNames_cons_false {p : ParamDef} {rest : List ParamDef} {d : Nat}
    (hp : p.indexed = false) :
    dNames (p :: rest) d = dKey p d :: dNames rest (d + 1) := by simp [dNames, hp]

theorem paramKeys_cons_true {p : ParamDef} {rest : List ParamDef} {t d : Nat}
    (hp : p.indexed = true) :
    paramKeys (p :: rest) t d = iKey p t :: paramKeys rest (t + 1) d := by
  simp [paramKeys, hp]

theorem paramKeys_cons_false {p : ParamDef} {rest : List ParamDef} {t d : Nat}
    (hp : p.indexed = false) :
    paramKeys (p :: rest) t d = dKey p d :: paramKeys rest t (d + 1) := by
  simp [paramKeys, hp]

theorem iNames_subset_paramKeys (inputs : List ParamDef) :
    ∀ t d : Nat, iNames inputs t ⊆ paramKeys inputs t d := by
  induction inputs with
  | nil => intro t d; simp [iNames]
  | cons p rest ih =>
    intro t d
    cases hp : p.indexed
    · rw [iNames_cons_false hp, paramKeys_cons_false hp]
      exact (ih t (d + 1)).trans (List.subset_cons_self _ _)
    · rw [iNames_cons_true hp, paramKeys_cons_true hp]
      exact List.cons_subset_cons _ (ih (t + 1) d)

theorem dNames_subset_paramKeys (inputs : List ParamDef) :
    ∀ t d : Nat, dNames inputs d ⊆ paramKeys inputs t d := by
  induction inputs with
  | nil => intro t d; simp [dNames]
  | cons p rest ih =>
    intro t d
    cases hp : p.indexed
    · rw [dNames_cons_false hp, paramKeys_cons_false hp]
      exact List.cons_subset_cons _ (ih t (d + 1))
    · rw [dNames_cons_true hp, paramKeys_cons_true hp]
      exact (ih (t + 1) d).trans (List.subset_cons_self _ _)

/-- Distinct parameter keys separate the indexed keys from the data keys. -/
theorem iNames_dNames_disjoint (inputs : List ParamDef) :
    ∀ t d : Nat, (paramKeys inputs t d).Nodup →
      ∀ k ∈ iNames inputs t, k ∉ dNames inputs d := by
  induction inputs with
  | nil => intro t d _ k hk; simp [iNames] at hk
  | cons p rest ih =>
    intro t d hnd k hk
    cases hp : p.indexed
    · rw [paramKeys_cons_false hp, List.nodup_cons] at hnd
      rw [iNames_cons_false hp] at hk
      rw [dNames_cons_false hp]
      intro hcontra
      rcases List.mem_cons.mp hcontra with hc | hc
      · exact hnd.1 (hc ▸ iNames_subset_paramKeys rest t (d + 1) hk)
      · exact ih t (d + 1) hnd.2 k hk hc
    · rw [paramKeys_cons_true hp, List.nodup_cons] at hnd
      rw [iNames_cons_true hp] at hk
      rw [dNames_cons_true hp]
      rcases List.mem_cons.mp hk with hk | hk
      · intro hcontra
        exact hnd.1 (hk ▸ dNames_subset_paramKeys rest (t + 1) d hcontra)
      · exact ih (t + 1) d hnd.2 k hk

/-- Filtering out indexed parameters does not change the data keys. -/
theorem dNames_filter (inputs : List ParamDef) :
    ∀ d : Nat, dNames (inputs.filter (fun p => !p.indexed)) d = dNames inputs d := by
  induction inputs with
  | nil => intro d; rfl
  | cons p rest ih =>
    intro d
    cases hp : p.indexed
    · rw [dNames_cons_false hp]
      simp only [List.filter_cons, hp]
      rw [show (!false) = true from rfl]
      simp only [if_true]
      rw [dNames_cons_false hp, ih]
    · rw [dNames_cons_true hp]
      simp only [List.filter_cons, hp]
      rw [show (!true) = false from rfl]
      simp only [Bool.false_eq_true, if_false]
      exact ih d

/-- The indexed loop only prepends (identical) writes onto its accumulators. -/
theorem decodeIndexedGo_shape (topics : List (List Nat)) :
    ∀ (inputs : List ParamDef) (t : Nat) (ind par : GoMap),
    ∃ W : GoMap, decodeIndexedGo topics inputs t ind par = (W ++ ind, W ++ par)
  | [], _, ind, par => ⟨[], by simp [decodeIndexedGo]⟩
  | input :: rest, t, ind, par => by
    rw [decodeIndexedGo]
    split
    · exact decodeIndexedGo_shape topics rest t ind par
    · split
      · exact ⟨[], by simp⟩
      · obtain ⟨W, hW⟩ := decodeIndexedGo_shape topics rest (t + 1)
          (mapPut ind (iKey input t) (decodeTopicValue input.typ (topics.getD t [])))
          (mapPut par (iKey input t) (decodeTopicValue input.typ (topics.getD t [])))
        refine ⟨W ++ [(iKey input t, decodeTopicValue input.typ (topics.getD t []))], ?_⟩
        simp only [List.append_assoc, List.singleton_append]
        exact hW

/-- The keys written by the indexed loop are among the indexed-parameter
keys. -/
theorem decodeIndexedGo_keys (topics : List (List Nat)) :
    ∀ (inputs : List ParamDef) (t : Nat) (ind par : GoMap),
    decodedKeys (decodeIndexedGo topics inputs t ind par).1
      ⊆ iNames inputs t ++ decodedKeys ind
  | [], _, ind, par => by simp [decodeIndexedGo]
  | input :: rest, t, ind, par => by
    rw [decodeIndexedGo]
    split
    next hidx =>
      rw [iNames_cons_false hidx]
      exact decodeIndexedGo_keys topics rest t ind par
    next hidx =>
      have hidx2 : input.indexed = true := by
        revert hidx; cases input.indexed <;> simp
      rw [iNames_cons_true hidx2]
      split
      · intro x hx
        simp only [List.cons_append, List.mem_cons, List.mem_append]
        exact Or.inr (Or.inr hx)
      · refine List.Subset.trans (decodeIndexedGo_keys topics rest (t + 1) _ _) ?_
        intro x hx
        simp only [decodedKeys, mapPut, List.map_cons, List.mem_append, List.mem_cons,
          List.cons_append] at hx ⊢
        tauto

/-- The keys written by the data loop are among the non-indexed-parameter
keys. -/
theorem decodeDataParamsGo_keys (data : List Nat) :
    ∀ (params : List ParamDef) (i : Nat) (out dataOut : GoMap),
    (∀ p ∈ params, p.indexed = false) →
    decodedKeys (decodeDataParamsGo data params i out dataOut).2
      ⊆ dNames params i ++ decodedKeys dataOut
  | [], _, out, dataOut, _ => by simp [decodeDataParamsGo]
  | p :: rest, i, out, dataOut, hall => by
    rw [decodeDataParamsGo]
    split
    · exact List.subset_append_right _ _
    · refine List.Subset.trans
        (decodeDataParamsGo_keys data rest (i + 1) _ _
          (fun q hq => hall q (List.mem_cons_of_mem _ hq))) ?_
      intro x hx
      rw [dNames_cons_false (hall p (List.mem_cons_self _ _))]
      simp only [decodedKeys, mapPut, List.map_cons, List.mem_append, List.mem_cons,
        List.cons_append] at hx ⊢
      tauto

/-- `mapGet` on an appended map reads the left (newer) map first. -/
theorem mapGet_append (a b : GoMap) (k : List Char) :
    mapGet (a ++ b) k = ((mapGet a k).orElse (fun _ => mapGet b k)) := by
  unfold mapGet
  rw [List.find?_append]
  cases List.find? (fun kv => kv.1 == k) a <;> simp [Option.orElse]

/-- An event definition with synthetic sigHash `[7]` and two unnamed
parameters, the first indexed. -/
def synDef : EventDef :=
  ⟨"U".data, "U(uint256,uint256)".data, [7],
    [⟨[], "uint256".data, true⟩, ⟨[], "uint256".data, false⟩]⟩

/-- A log matching `synDef` with one indexed topic and one data word. -/
def synLog : Log := { topics := [[7], word32 3], data := word32 4 }

/-- C7 (amended): for every successfully decoded log, `Params` is exactly
`Data` followed by `Indexed` (so a lookup reads `Data` first and falls back
to `Indexed`; on a key collision the data value shadows the indexed one), and
the key sets of `Indexed` and `Data` are disjoint provided the definition's
parameter keys — explicit names, or the synthetic `argN` / `dataN` keys for
unnamed parameters — are pairwise distinct; unnamed parameters do receive the
synthetic keys `argN` (topic index) and `dataN` (data position). -/
theorem params_union_and_disjoint (s : Schema) (log : Log) (ev : DecodedEvent)
    (d : EventDef)
    (hd : schemaLookup s (log.topics.headD []) = some d)
    (hok : decode s log = .ok ev) :
    ev.params = ev.data ++ ev.indexed
    ∧ (∀ k, mapGet ev.params k = ((mapGet ev.data k).orElse (fun _ => mapGet ev.indexed k)))
    ∧ ((paramKeys d.inputs 1 0).Nodup →
        ∀ k ∈ decodedKeys ev.indexed, k ∉ decodedKeys ev.data)
    ∧ (decode [synDef] synLog).map (fun ev2 => decodedKeys ev2.params)
        = .ok ["data0".data, "arg1".data] := by
  have ht : log.topics ≠ [] := by
    intro he
    rw [decode, if_pos he] at hok
    exact absurd hok (by simp)
  rw [decode, if_neg ht, hd] at hok
  dsimp only at hok
  obtain ⟨W1, hW1⟩ := decodeIndexedGo_shape log.topics d.inputs 1 [] []
  simp only [List.append_nil] at hW1
  rw [hW1] at hok
  have hindkeys : decodedKeys W1 ⊆ iNames d.inputs 1 := by
    have := decodeIndexedGo_keys log.topics d.inputs 1 [] []
    rw [hW1] at this
    simpa [decodedKeys] using this
  split at hok
  next hcond =>
    obtain ⟨W2, hW2⟩ := decodeDataParamsGo_shape log.data
      (d.inputs.filter (fun input => !input.indexed)) 0 W1 []
    rw [List.append_nil] at hW2
    rw [show decodeDataParams log.data (d.inputs.filter (fun input => !input.indexed)) W1 []
        = decodeDataParamsGo log.data (d.inputs.filter (fun input => !input.indexed)) 0 W1 []
      from rfl] at hok
    rw [hW2] at hok
    have hdatakeys : decodedKeys W2 ⊆ dNames d.inputs 0 := by
      have hsub := decodeDataParamsGo_keys log.data
        (d.inputs.filter (fun input => !input.indexed)) 0 W1 []
        (by intro p hp; simpa using (List.mem_filter.mp hp).2)
      rw [hW2] at hsub
      rw [← dNames_filter d.inputs 0]
      simpa [decodedKeys] using hsub
    cases hok
    refine ⟨rfl, fun k => mapGet_append W2 W1 k, ?_, by rfl⟩
    intro hnd k hk hk'
    exact iNames_dNames_disjoint d.inputs 1 0 hnd k (hindkeys hk) (hdatakeys hk')
  next hcond =>
    cases hok
    refine ⟨rfl, ?_, ?_, by rfl⟩
    · intro k
      simp [mapGet, Option.orElse]
    · intro _ k _ hk'
      simp [decodedKeys] at hk'

/-- The duplicate-name event `E(uint256 indexed a, uint256 a)`, registered
through the parser. -/
def dupDef : Option EventDef :=
  (parseEventSignature "E(uint256 indexed a, uint256 a)".data).map registerParsed

/-- A log carrying `dupDef`'s signature hash, one indexed topic word and one
data word. -/
def dupLog : Log :=
  { topics := [(dupDef.map (·.sigHash)).getD [], word32 1], data := word32 2 }

/-- A schema with the duplicate-name event registered. -/
def dupSchema : Schema := (dupDef.map (schemaAdd [])).getD []

set_option maxRecDepth 100000 in
/-- Counterexample to C7 as stated: registering
`E(uint256 indexed a, uint256 a)` and decoding a matching log places the key
`a` in both the `Indexed` and the `Data` maps, so their key sets are not
disjoint. -/
theorem params_disjoint_counterexample :
    (decode dupSchema dupLog).map
      (fun ev => ((mapGet ev.indexed "a".data).isSome, (mapGet ev.data "a".data).isSome))
      = .ok (true, true) := by rfl

/-- Fallback decoded event. -/
def evDflt : DecodedEvent := ⟨[], [], [], [], [], ⟨[], []⟩⟩

/-- The decoded event of a log whose decode succeeds. -/
def decodeOr (s : Schema) (l : Log) : DecodedEvent :=
  match decode s l with
  | .ok e => e
  | .error _ => evDflt

/-- An event definition with synthetic sigHash `[9]` and distinct parameter
names. -/
def c7wDef : EventDef :=
  ⟨"T".data, "T(uint256,uint256)".data, [9],
    [⟨"a".data, "uint256".data, true⟩, ⟨"b".data, "uint256".data, false⟩]⟩

/-- A log matching `c7wDef`. -/
def c7wLog : Log := { topics := [[9], word32 1], data := word32 2 }

/-- Witness for C7 (amended): a two-parameter event with distinct names
decodes with `params = data ++ indexed` and disjoint key sets. -/
theorem params_union_and_disjoint_witness :
    (decodeOr [c7wDef] c7wLog).params
        = (decodeOr [c7wDef] c7wLog).data ++ (decodeOr [c7wDef] c7wLog).indexed
    ∧ (∀ k ∈ decodedKeys (decodeOr [c7wDef] c7wLog).indexed,
        k ∉ decodedKeys (decodeOr [c7wDef] c7wLog).data) :=
  ⟨(params_union_and_disjoint [c7wDef] c7wLog (decodeOr [c7wDef] c7wLog) c7wDef rfl rfl).1,
   (params_union_and_disjoint [c7wDef] c7wLog (decodeOr [c7wDef] c7wLog) c7wDef rfl
      rfl).2.2.1 (by decide)⟩

/-! ## C9 infrastructure: string lemmas for re-parsing canonical signatures -/

theorem dropWhile_head_clean {p : Char → Bool} :
    ∀ (l : List Char) (c : Char), (l.dropWhile p).head? = some c → p c = false
  | [], c, h => by simp at h
  | a :: rest, c, h => by
    rw [List.dropWhile_cons] at h
    split at h
    · exact dropWhile_head_clean rest c h
    next hpa =>
      simp only [List.head?_cons, Option.some.injEq] at h
      rw [← h]
      revert hpa
      cases p a <;> simp

theorem trimSpace_subset (s : List Char) : trimSpace s ⊆ s := by
  intro c hc
  unfold trimSpace at hc
  rw [List.mem_reverse] at hc
  have h1 := (List.dropWhile_sublist (l := (s.dropWhile goIsSpace).reverse)
    (p := goIsSpace)).subset hc
  rw [List.mem_reverse] at h1
  exact (List.dropWhile_sublist (l := s) (p := goIsSpace)).subset h1

theorem trimSpace_getLast_clean (s : List Char) (c : Char)
    (h : (trimSpace s).getLast? = some c) : goIsSpace c = false := by
  unfold trimSpace at h
  rw [List.getLast?_reverse] at h
  exact dropWhile_head_clean _ c h

theorem trimSpace_head_clean (s : List Char) (c : Char)
    (h : (trimSpace s).head? = some c) : goIsSpace c = false := by
  unfold trimSpace at h
  obtain ⟨u, hu⟩ :=
    List.dropWhile_suffix (l := (s.dropWhile goIsSpace).reverse) (p := goIsSpace)
  have hsplit : s.dropWhile goIsSpace
      = ((s.dropWhile goIsSpace).reverse.dropWhile goIsSpace).reverse ++ u.reverse := by
    have := congrArg List.reverse hu
    rw [List.reverse_append, List.reverse_reverse] at this
    exact this.symm
  cases hz : ((s.dropWhile goIsSpace).reverse.dropWhile goIsSpace).reverse with
  | nil => rw [hz] at h; simp at h
  | cons a t =>
    rw [hz] at h
    simp only [List.head?_cons, Option.some.injEq] at h
    have hyhead : (s.dropWhile goIsSpace).head? = some a := by
      rw [hsplit, hz]
      simp
    rw [← h]
    exact dropWhile_head_clean s a hyhead

theorem trimSpace_eq_self (s : List Char)
    (hhead : ∀ c, s.head? = some c → goIsSpace c = false)
    (hlast : ∀ c, s.getLast? = some c → goIsSpace c = false) :
    trimSpace s = s := by
  unfold trimSpace
  have h1 : s.dropWhile goIsSpace = s := by
    cases s with
    | nil => rfl
    | cons a t =>
      rw [List.dropWhile_cons, if_neg (by simp [hhead a rfl])]
  rw [h1]
  have h2 : s.reverse.dropWhile goIsSpace = s.reverse := by
    cases hrev : s.reverse with
    | nil => rfl
    | cons a t =>
      have ha : s.getLast? = some a := by
        rw [← List.head?_reverse, hrev]
        simp
      rw [List.dropWhile_cons, if_neg (by simp [hlast a ha])]
  rw [h2, List.reverse_reverse]

theorem trimSpace_idem (s : List Char) : trimSpace (trimSpace s) = trimSpace s :=
  trimSpace_eq_self _ (trimSpace_head_clean s) (trimSpace_getLast_clean s)

theorem trimSpace_of_all_nonspace (s : List Char)
    (h : ∀ c ∈ s, goIsSpace c = false) : trimSpace s = s := by
  refine trimSpace_eq_self s (fun c hc => h c ?_) (fun c hc => h c ?_)
  · exact List.mem_of_mem_head? hc
  · exact List.mem_of_mem_getLast? hc

theorem indexOfChar_append_notMem (c0 : Char) :
    ∀ (l1 l2 : List Char), c0 ∉ l1 →
    indexOfChar (l1 ++ c0 :: l2) c0 = some l1.length
  | [], l2, _ => by simp [indexOfChar]
  | a :: l1, l2, h => by
    rw [List.cons_append, indexOfChar]
    rw [if_neg ?hne]
    case hne =>
      intro he
      apply h
      rw [he]
      exact List.mem_cons_self _ _
    rw [indexOfChar_append_notMem c0 l1 l2 (fun hm => h (List.mem_cons_of_mem _ hm))]
    simp

theorem indexOfChar_take (c0 : Char) :
    ∀ (s : List Char) (i : Nat), indexOfChar s c0 = some i → c0 ∉ s.take i
  | [], i, h => by simp
  | a :: rest, i, h => by
    rw [indexOfChar] at h
    by_cases ha : a = c0
    · rw [if_pos ha] at h
      simp only [Option.some.injEq] at h
      subst h
      simp
    · rw [if_neg ha] at h
      cases hr : indexOfChar rest c0 with
      | none => rw [hr] at h; simp at h
      | some j =>
        rw [hr] at h
        simp only [Option.map_some', Option.some.injEq] at h
        subst h
        rw [List.take_succ_cons]
        intro hmem
        rcases List.mem_cons.mp hmem with he | hm
        · exact ha he.symm
        · exact indexOfChar_take c0 rest j hr hm

theorem lastIndexOfChar_concat (xs : List Char) (c0 : Char) :
    lastIndexOfChar (xs ++ [c0]) c0 = some (xs.length) := by
  unfold lastIndexOfChar
  rw [List.reverse_append]
  simp only [List.reverse_cons, List.reverse_nil, List.nil_append, List.singleton_append]
  rw [indexOfChar, if_pos rfl]
  simp

theorem fieldsGo_all_nonspace :
    ∀ (t cur : List Char), (∀ c ∈ t, goIsSpace c = false) → (t ≠ [] ∨ cur ≠ []) →
    fieldsGo t cur = [cur ++ t]
  | [], cur, _, hor => by
    rcases hor with h | h
    · exact absurd rfl h
    · simp [fieldsGo, h]
  | c :: t, cur, hall, _ => by
    rw [fieldsGo, if_neg (by simp [hall c (List.mem_cons_self _ _)])]
    rw [fieldsGo_all_nonspace t (cur ++ [c])
      (fun x hx => hall x (List.mem_cons_of_mem _ hx)) (Or.inr (by simp))]
    simp

theorem fields_of_nonspace (t : List Char) (hne : t ≠ [])
    (hns : ∀ c ∈ t, goIsSpace c = false) : fields t = [t] := by
  unfold fields
  rw [fieldsGo_all_nonspace t [] hns (Or.inl hne)]
  simp

theorem parseParam_of_nonspace (t : List Char) (hne : t ≠ [])
    (hns : ∀ c ∈ t, goIsSpace c = false) :
    parseParam t = some ⟨t, [], false⟩ := by
  unfold parseParam
  rw [fields_of_nonspace t hne hns]
  rfl

theorem collectParams_clean :
    ∀ parts : List (List Char),
    (∀ t ∈ parts, t ≠ [] ∧ ∀ c ∈ t, goIsSpace c = false) →
    collectParams parts = some (parts.map (fun t => ⟨t, [], false⟩))
  | [], _ => rfl
  | t :: rest, h => by
    obtain ⟨hne, hns⟩ := h t (List.mem_cons_self _ _)
    rw [collectParams]
    rw [trimSpace_of_all_nonspace t hns]
    rw [if_neg hne]
    rw [parseParam_of_nonspace t hne hns]
    rw [collectParams_clean rest (fun q hq => h q (List.mem_cons_of_mem _ hq))]
    simp

/-- `fieldsGo` with a nonempty current token never returns the empty list. -/
theorem fieldsGo_ne_nil :
    ∀ (s cur : List Char), cur ≠ [] → fieldsGo s cur ≠ []
  | [], cur, h => by simp [fieldsGo, h]
  | c :: rest, cur, h => by
    rw [fieldsGo]
    by_cases hsp : goIsSpace c = true
    · rw [if_pos hsp, if_neg h]
      simp
    · rw [if_neg hsp]
      exact fieldsGo_ne_nil rest (cur ++ [c]) (by simp)

/-- Every token produced by `fieldsGo` is nonempty and whitespace-free. -/
theorem fieldsGo_tokens :
    ∀ (s cur : List Char), (∀ c ∈ cur, goIsSpace c = false) →
    ∀ t ∈ fieldsGo s cur, t ≠ [] ∧ ∀ c ∈ t, goIsSpace c = false
  | [], cur, hcur, t, ht => by
    rw [fieldsGo] at ht
    split at ht
    · simp at ht
    next hne =>
      simp only [List.mem_singleton] at ht
      subst ht
      exact ⟨hne, hcur⟩
  | c :: rest, cur, hcur, t, ht => by
    rw [fieldsGo] at ht
    by_cases hsp : goIsSpace c = true
    · rw [if_pos hsp] at ht
      by_cases hcne : cur = []
      · rw [if_pos hcne] at ht
        exact fieldsGo_tokens rest [] (by simp) t ht
      · rw [if_neg hcne] at ht
        rcases List.mem_cons.mp ht with he | hm
        · subst he
          exact ⟨hcne, hcur⟩
        · exact fieldsGo_tokens rest [] (by simp) t hm
    · rw [if_neg hsp] at ht
      refine fieldsGo_tokens rest (cur ++ [c]) ?_ t ht
      intro x hx
      rcases List.mem_append.mp hx with hx | hx
      · exact hcur x hx
      · rw [List.mem_singleton] at hx
        subst hx
        simpa using hsp

/-- The `parseParam` fold only ever sets the name and the indexed flag. -/
theorem parseParam_foldl_typ :
    ∀ (toks : List (List Char)) (p0 : ParsedParam),
    (toks.foldl
      (fun p tok =>
        if tok = "indexed".data then { p with indexed := true }
        else { p with name := tok }) p0).typ = p0.typ
  | [], _ => rfl
  | tok :: rest, p0 => by
    rw [List.foldl_cons, parseParam_foldl_typ rest]
    split <;> rfl

/-- A successful `parseParam` returns a type drawn from the `Fields` tokens. -/
theorem parseParam_typ_token (t : List Char) (p0 : ParsedParam)
    (h : parseParam t = some p0) :
    ∃ tk ∈ fields t, p0.typ = tk := by
  unfold parseParam at h
  cases hfs : fields t with
  | nil => rw [hfs] at h; simp at h
  | cons t0 rest =>
    rw [hfs] at h
    simp only [Option.some.injEq] at h
    refine ⟨t0, by simp, ?_⟩
    rw [← h]
    exact parseParam_foldl_typ rest _

/-- `parseParam` succeeds on any part whose trim is nonempty. -/
theorem parseParam_isSome_of_trimmed (t : List Char) (hne : trimSpace t ≠ []) :
    ∃ p0, parseParam (trimSpace t) = some p0 := by
  cases hts : trimSpace t with
  | nil => exact absurd hts hne
  | cons a rest2 =>
    have hc : goIsSpace a = false :=
      trimSpace_head_clean t a (by rw [hts]; rfl)
    have hfne : fields (a :: rest2) ≠ [] := by
      unfold fields
      rw [fieldsGo, if_neg (by simp [hc])]
      exact fieldsGo_ne_nil rest2 ([] ++ [a]) (by simp)
    unfold parseParam
    cases hfs : fields (a :: rest2) with
    | nil => exact absurd hfs hfne
    | cons t0 r => exact ⟨_, rfl⟩

/-- `collectParams` succeeds on every list of parts: all-whitespace parts are
skipped and any other part has a first `Fields` token. -/
theorem collectParams_isSome :
    ∀ parts : List (List Char), ∃ ps, collectParams parts = some ps
  | [] => ⟨[], rfl⟩
  | part :: rest => by
    rw [collectParams]
    by_cases hp : trimSpace part = []
    · rw [if_pos hp]
      exact collectParams_isSome rest
    · rw [if_neg hp]
      obtain ⟨p0, hp0⟩ := parseParam_isSome_of_trimmed part hp
      obtain ⟨ps, hps⟩ := collectParams_isSome rest
      rw [hp0, hps]
      exact ⟨_, rfl⟩

/-- Every parameter collected by `collectParams` has a nonempty,
whitespace-free type (it is a `Fields` token of a trimmed part). -/
theorem collectParams_typ_facts :
    ∀ (parts : List (List Char)) (ps : List ParsedParam),
    collectParams parts = some ps →
    ∀ q ∈ ps, q.typ ≠ [] ∧ ∀ c ∈ q.typ, goIsSpace c = false
  | [], ps, h, q, hq => by
    rw [collectParams] at h
    simp only [Option.some.injEq] at h
    subst h
    simp at hq
  | part :: rest, ps, h, q, hq => by
    rw [collectParams] at h
    by_cases hp : trimSpace part = []
    · rw [if_pos hp] at h
      exact collectParams_typ_facts rest ps h q hq
    · rw [if_neg hp] at h
      cases hpp : parseParam (trimSpace part) with
      | none =>
        rw [hpp] at h
        cases hcr : collectParams rest with
        | none => rw [hcr] at h; simp at h
        | some ps2 => rw [hcr] at h; simp at h
      | some p0 =>
        rw [hpp] at h
        cases hcr : collectParams rest with
        | none => rw [hcr] at h; simp at h
        | some ps2 =>
          rw [hcr] at h
          simp only [Option.some.injEq] at h
          subst h
          rcases List.mem_cons.mp hq with he | hm
          · subst he
            obtain ⟨tk, htk, htyp⟩ := parseParam_typ_token _ _ hpp
            have hfacts := fieldsGo_tokens (trimSpace part) [] (by simp) tk htk
            rw [htyp]
            exact hfacts
          · exact collectParams_typ_facts rest ps2 hcr q hm

/-- Scan of a parenthesis-balanced type: starting from `d` open parentheses,
the depth never drops below zero, every comma sits inside parentheses, and
the scan ends back at depth 0. -/
def typeOKAux : List Char → Nat → Bool
  | [], d => d == 0
  | c :: rest, d =>
    if c = '(' then typeOKAux rest (d + 1)
    else if c = ')' then decide (0 < d) && typeOKAux rest (d - 1)
    else if c = ',' then decide (0 < d) && typeOKAux rest d
    else typeOKAux rest d

/-- A parameter type that re-parses cleanly: nonempty, whitespace-free,
parenthesis-balanced with every comma nested — true of every well-formed
Solidity type, tuples included. -/
def typeOK (t : List Char) : Bool :=
  !t.isEmpty && t.all (fun c => !goIsSpace c) && typeOKAux t 0

/-- Scanning a balanced chunk never splits and returns to the entry depth. -/
theorem splitParamsGo_pass :
    ∀ (t : List Char) (d : Nat) (cur rest : List Char), typeOKAux t d = true →
    splitParamsGo (t ++ rest) (d : Int) cur = splitParamsGo rest 0 (cur ++ t)
  | [], d, cur, rest, hok => by
    simp only [typeOKAux, beq_iff_eq] at hok
    subst hok
    simp
  | c :: t, d, cur, rest, hok => by
    rw [typeOKAux] at hok
    rw [List.cons_append, splitParamsGo]
    by_cases hc1 : c = '('
    · rw [if_pos hc1]
      rw [if_pos hc1] at hok
      rw [show ((d : Int) + 1) = ((d + 1 : Nat) : Int) from by push_cast; ring]
      rw [splitParamsGo_pass t (d + 1) (cur ++ [c]) rest hok]
      simp
    · rw [if_neg hc1]
      rw [if_neg hc1] at hok
      by_cases hc2 : c = ')'
      · rw [if_pos hc2]
        rw [if_pos hc2, Bool.and_eq_true, decide_eq_true_eq] at hok
        rw [show ((d : Int) - 1) = ((d - 1 : Nat) : Int) from by
          have := hok.1; push_cast [this]; omega]
        rw [splitParamsGo_pass t (d - 1) (cur ++ [c]) rest hok.2]
        simp
      · rw [if_neg hc2]
        rw [if_neg hc2] at hok
        by_cases hc3 : c = ','
        · rw [if_pos hc3]
          rw [if_pos hc3, Bool.and_eq_true, decide_eq_true_eq] at hok
          rw [if_neg (by
            have := hok.1
            omega)]
          rw [splitParamsGo_pass t d (cur ++ [c]) rest hok.2]
          simp
        · rw [if_neg hc3]
          rw [if_neg hc3] at hok
          rw [splitParamsGo_pass t d (cur ++ [c]) rest hok]
          simp

/-- A top-level comma splits. -/
theorem splitParamsGo_sep (rest : List Char) (cur : List Char) :
    splitParamsGo (',' :: rest) 0 cur = cur :: splitParamsGo rest 0 [] := by
  rw [splitParamsGo]
  rw [if_neg (by decide), if_neg (by decide), if_pos rfl, if_pos rfl]

theorem joinComma_cons_cons (t t2 : List Char) (rest : List (List Char)) :
    joinComma (t :: t2 :: rest) = t ++ ',' :: joinComma (t2 :: rest) := rfl

/-- `splitParamsGo_pass` at entry depth 0. -/
theorem splitParamsGo_pass0 (t cur rest : List Char) (h : typeOKAux t 0 = true) :
    splitParamsGo (t ++ rest) 0 cur = splitParamsGo rest 0 (cur ++ t) := by
  have h2 := splitParamsGo_pass t 0 cur rest h
  simpa using h2

/-- Splitting the comma-join of balanced chunks recovers the chunks. -/
theorem splitParams_joinComma :
    ∀ ts : List (List Char), ts ≠ [] → (∀ t ∈ ts, typeOKAux t 0 = true) →
    splitParams (joinComma ts) = ts
  | [], h, _ => absurd rfl h
  | [t], _, hok => by
    unfold splitParams
    rw [show joinComma [t] = t from rfl]
    have h2 : splitParamsGo t (0 : Int) [] = splitParamsGo (t ++ []) (0 : Int) [] := by
      rw [List.append_nil]
    rw [h2, splitParamsGo_pass0 t [] [] (hok t (by simp))]
    simp [splitParamsGo]
  | t :: t2 :: rest, _, hok => by
    unfold splitParams
    rw [joinComma_cons_cons]
    rw [splitParamsGo_pass0 t [] (',' :: joinComma (t2 :: rest)) (hok t (by simp))]
    rw [List.nil_append, splitParamsGo_sep]
    rw [show splitParamsGo (joinComma (t2 :: rest)) (0 : Int) []
        = splitParams (joinComma (t2 :: rest)) from rfl]
    rw [splitParams_joinComma (t2 :: rest) (by simp)
      (fun q hq => hok q (List.mem_cons_of_mem _ hq))]

/-- The comma-join of whitespace-free chunks is whitespace-free. -/
theorem joinComma_nonspace :
    ∀ ts : List (List Char), (∀ t ∈ ts, ∀ c ∈ t, goIsSpace c = false) →
    ∀ c ∈ joinComma ts, goIsSpace c = false
  | [], _, c, hc => by simp [joinComma] at hc
  | [t], h, c, hc => h t (by simp) c (by simpa [joinComma] using hc)
  | t :: t2 :: rest, h, c, hc => by
    rw [joinComma_cons_cons] at hc
    rcases List.mem_append.mp hc with hm | hm
    · exact h t (by simp) c hm
    · rcases List.mem_cons.mp hm with he | hm2
      · subst he; rfl
      · exact joinComma_nonspace (t2 :: rest)
          (fun q hq => h q (List.mem_cons_of_mem _ hq)) c hm2

/-- The comma-join of nonempty chunks is nonempty. -/
theorem joinComma_ne_nil :
    ∀ ts : List (List Char), ts ≠ [] → (∀ t ∈ ts, t ≠ []) → joinComma ts ≠ []
  | [], h, _ => absurd rfl h
  | [t], _, hne => by
    rw [show joinComma [t] = t from rfl]
    exact hne t (by simp)
  | t :: t2 :: rest, _, hne => by
    rw [joinComma_cons_cons]
    intro hcontra
    rcases List.append_eq_nil.mp hcontra with ⟨h1, h2⟩
    exact hne t (by simp) h1

/-- A successful parse yields a nonempty, trimmed event name containing no
opening parenthesis, and every parameter type is a nonempty, whitespace-free
`Fields` token. -/
theorem parse_facts (sig : List Char) (p : ParsedEvent)
    (hp : parseEventSignature sig = some p) :
    (p.name ≠ [] ∧ trimSpace p.name = p.name ∧ '(' ∉ p.name)
    ∧ ∀ q ∈ p.params, q.typ ≠ [] ∧ ∀ c ∈ q.typ, goIsSpace c = false := by
  unfold parseEventSignature at hp
  dsimp only at hp
  cases ho : indexOfChar (trimSpace sig) '(' with
  | none => rw [ho] at hp; simp at hp
  | some po =>
    cases hc : lastIndexOfChar (trimSpace sig) ')' with
    | none => rw [ho, hc] at hp; simp at hp
    | some pc =>
      rw [ho, hc] at hp
      dsimp only at hp
      split at hp
      · simp at hp
      · split at hp
        · simp at hp
        next hname =>
          have hidem : trimSpace (trimSpace ((trimSpace sig).take po))
              = trimSpace ((trimSpace sig).take po) := trimSpace_idem _
          have hnopen : '(' ∉ trimSpace ((trimSpace sig).take po) := fun hm =>
            indexOfChar_take '(' (trimSpace sig) po ho (trimSpace_subset _ hm)
          split at hp
          · cases hp
            exact ⟨⟨hname, hidem, hnopen⟩, by simp⟩
          · split at hp
            next ps hcoll =>
              cases hp
              exact ⟨⟨hname, hidem, hnopen⟩, collectParams_typ_facts _ ps hcoll⟩
            · simp at hp

set_option maxRecDepth 100000 in
/-- C9 (amended): for every signature that parses successfully, re-parsing
the canonical form of the parsed event succeeds; the canonical form is
moreover a fixed point whenever every parsed parameter type is nonempty,
whitespace-free, and parenthesis-balanced with all commas nested — true of
every well-formed Solidity type, tuples included; the tuple-carrying
signature `F((a,b) t, uint256 u)` canonicalises to `F((a,b),uint256)` (the
splitter only splits on top-level commas). For malformed types with
unbalanced parentheses the canonical form can change, as the counterexample
records. -/
theorem parse_canonical_fixed_point (sig : List Char) (p : ParsedEvent)
    (hp : parseEventSignature sig = some p) :
    (∃ p2, parseEventSignature (canonical p) = some p2)
    ∧ ((∀ q ∈ p.params, typeOK q.typ = true) →
        ∃ p2, parseEventSignature (canonical p) = some p2 ∧ canonical p2 = canonical p)
    ∧ (parseEventSignature "F((a,b) t, uint256 u)".data).map canonical
        = some "F((a,b),uint256)".data := by
  obtain ⟨⟨hnne, hntrim, hnopen⟩, htyfacts⟩ := parse_facts sig p hp
  have htyne : ∀ t ∈ p.params.map (·.typ), t ≠ [] := by
    intro t ht
    obtain ⟨q, hq, hqt⟩ := List.mem_map.mp ht
    subst hqt
    exact (htyfacts q hq).1
  have htyns : ∀ t ∈ p.params.map (·.typ), ∀ c ∈ t, goIsSpace c = false := by
    intro t ht
    obtain ⟨q, hq, hqt⟩ := List.mem_map.mp ht
    subst hqt
    exact (htyfacts q hq).2
  have hcanon : canonical p
      = p.name ++ '(' :: (joinComma (p.params.map (·.typ)) ++ [')']) := by
    unfold canonical
    simp
  have hShead : ∀ c, (canonical p).head? = some c → goIsSpace c = false := by
    intro c hch
    rw [hcanon] at hch
    cases hn : p.name with
    | nil => exact absurd hn hnne
    | cons a t =>
      rw [hn, List.cons_append, List.head?_cons] at hch
      have ha : (trimSpace p.name).head? = some a := by
        rw [hntrim, hn]
        simp
      simp only [Option.some.injEq] at hch
      rw [← hch]
      exact trimSpace_head_clean _ _ ha
  have hSlast : ∀ c, (canonical p).getLast? = some c → goIsSpace c = false := by
    intro c hcl
    rw [hcanon, show p.name ++ '(' :: (joinComma (p.params.map (·.typ)) ++ [')'])
        = (p.name ++ '(' :: joinComma (p.params.map (·.typ))) ++ [')'] from by simp] at hcl
    rw [List.getLast?_concat] at hcl
    simp only [Option.some.injEq] at hcl
    rw [← hcl]
    rfl
  have htrimc : trimSpace (canonical p) = canonical p :=
    trimSpace_eq_self _ hShead hSlast
  have hopen : indexOfChar (canonical p) '('
      = some p.name.length := by
    rw [hcanon]
    exact indexOfChar_append_notMem '(' p.name _ hnopen
  have hclose : lastIndexOfChar (canonical p) ')'
      = some (p.name.length + 1 + (joinComma (p.params.map (·.typ))).length) := by
    rw [hcanon, show p.name ++ '(' :: (joinComma (p.params.map (·.typ)) ++ [')'])
        = (p.name ++ '(' :: joinComma (p.params.map (·.typ))) ++ [')'] from by simp]
    rw [lastIndexOfChar_concat]
    simp [List.length_append]
    omega
  have htake : (canonical p).take p.name.length = p.name := by
    rw [hcanon]
    exact List.take_left p.name _
  have hslice : ((canonical p).drop (p.name.length + 1)).take
      (joinComma (p.params.map (·.typ))).length = joinComma (p.params.map (·.typ)) := by
    rw [hcanon, show p.name ++ '(' :: (joinComma (p.params.map (·.typ)) ++ [')'])
        = (p.name ++ ['(']) ++ (joinComma (p.params.map (·.typ)) ++ [')']) from by simp]
    rw [show p.name.length + 1 = (p.name ++ ['(']).length from by simp]
    rw [List.drop_left]
    exact List.take_left _ _
  refine ⟨?_, ?_, by decide⟩
  · unfold parseEventSignature
    dsimp only
    rw [htrimc, hopen, hclose]
    dsimp only
    rw [if_neg (by omega)]
    rw [htake, hntrim, if_neg hnne]
    rw [show p.name.length + 1 + (joinComma (p.params.map (·.typ))).length
        - (p.name.length + 1) = (joinComma (p.params.map (·.typ))).length from by omega]
    rw [hslice]
    rw [trimSpace_of_all_nonspace _ (joinComma_nonspace _ htyns)]
    by_cases hS : joinComma (p.params.map (·.typ)) = []
    · rw [if_pos hS]
      exact ⟨_, rfl⟩
    · rw [if_neg hS]
      obtain ⟨ps, hcps⟩ :=
        collectParams_isSome (splitParams (joinComma (p.params.map (·.typ))))
      rw [hcps]
      exact ⟨_, rfl⟩
  · intro hty
    have htyok : ∀ t ∈ p.params.map (·.typ), typeOKAux t 0 = true := by
      intro t ht
      obtain ⟨q, hq, hqt⟩ := List.mem_map.mp ht
      have := hty q hq
      unfold typeOK at this
      simp only [Bool.and_eq_true] at this
      subst hqt
      exact this.2
    unfold parseEventSignature
    dsimp only
    rw [htrimc, hopen, hclose]
    dsimp only
    rw [if_neg (by omega)]
    rw [htake, hntrim, if_neg hnne]
    rw [show p.name.length + 1 + (joinComma (p.params.map (·.typ))).length
        - (p.name.length + 1) = (joinComma (p.params.map (·.typ))).length from by omega]
    rw [hslice]
    rw [trimSpace_of_all_nonspace _ (joinComma_nonspace _ htyns)]
    by_cases hps : p.params = []
    · rw [hps]
      simp only [List.map_nil]
      rw [show joinComma [] = ([] : List Char) from rfl, if_pos rfl]
      refine ⟨⟨p.name, []⟩, rfl, ?_⟩
      unfold canonical
      rw [hps]
    · have hmapne : p.params.map (·.typ) ≠ [] := by
        intro h
        exact hps (List.map_eq_nil_iff.mp h)
      have hSne : joinComma (p.params.map (·.typ)) ≠ [] :=
        joinComma_ne_nil _ hmapne htyne
      rw [if_neg hSne]
      rw [splitParams_joinComma _ hmapne htyok]
      rw [collectParams_clean _ (fun t ht => ⟨htyne t ht, htyns t ht⟩)]
      dsimp only
      refine ⟨_, rfl, ?_⟩
      unfold canonical
      simp only [List.map_map]
      rfl

/-- Counterexample to C9 as stated: the signature `F(( x),),)` parses, its
canonical form `F((,),)` re-parses, but the re-parse's canonical form is
`F((,))` — not a fixed point. -/
theorem parse_canonical_counterexample :
    ((parseEventSignature "F(( x),),)".data).bind (fun q =>
        (parseEventSignature (canonical q)).map (fun q2 => canonical q2 == canonical q)))
      = some false := by decide

/-- The `Transfer` signature as parsed. -/
def transferParsed : ParsedEvent :=
  (parseEventSignature transferSigText).getD ⟨[], []⟩

/-- Witness for C9 (amended): the parsed `Transfer` signature's canonical
form is a fixed point. -/
theorem parse_canonical_fixed_point_witness :
    ∃ p2, parseEventSignature (canonical transferParsed) = some p2
      ∧ canonical p2 = canonical transferParsed :=
  (parse_canonical_fixed_point transferSigText transferParsed rfl).2.1 (by decide)

/-- Witness for C1: the stored `Transfer` definition satisfies
`sigHash = keccak256(signature)`. -/
theorem registered_sigHash_is_keccak_witness :
    (registerParsed transferParsed).sigHash
      = eventSignatureHash ((registerParsed transferParsed).signature) :=
  (registered_sigHash_is_keccak.1 transferParsed).1

/-! ## The wrapped `uint64` guard of the dynamic decoder

`decodeDynamicValue` and `decodeDynamicBytes` guard with
`offset+32 > uint64(len(data))` where `offset+32` is wrapping 64-bit
addition, and then slice `data[offset : offset+32]` with the same wrapped
upper index; a Go slice expression `data[lo:hi]` panics unless
`lo ≤ hi ≤ len(data)`. For a head-word offset in `[2^64−32, 2^64)` the
wrapped sum is small, so the guard passes and the slice panics. -/

/-- The guard `offset+32 > uint64(len(data))` of `decodeDynamicValue` /
`decodeDynamicBytes`, with Go's wrapping `uint64` addition: `true` means the
guard passes and decoding proceeds to the slice. -/
def goDynGuardPasses (dataLen off : Nat) : Bool :=
  !decide ((off + 32) % w64 > dataLen)

/-- A Go slice expression `data[lo:hi]` is in bounds iff `lo ≤ hi ≤ len`;
otherwise Go panics with "slice bounds out of range". -/
def goSliceInBounds (dataLen lo hi : Nat) : Bool :=
  decide (lo ≤ hi) && decide (hi ≤ dataLen)

/-- A 32-byte data blob whose single head word is `2^64 − 16`. -/
def panicData : List Nat := word32 (w64 - 16)

/-- The registered definition of `M(string x)`. -/
def strEvDef : Option EventDef := (parseEventSignature "M(string x)".data).map registerParsed

/-- A log carrying `panicData` under the `M(string x)` signature hash. -/
def panicLog : Log := { topics := [(strEvDef.map (·.sigHash)).getD []], data := panicData }

/-- A schema holding only `M(string x)`. -/
def panicSchema : Schema := (strEvDef.map (schemaAdd [])).getD []

set_option maxRecDepth 100000 in
/-- C5 (code bug): `Decode`'s error returns occur exactly on an empty topics
list (`noTopics`) or an unregistered `topics[0]` (`unknownSignature`), but
the claim's "truncated or malformed data blobs do not cause an error" fails
in the code: for the registered event `M(string x)` and the 32-byte blob
whose single head word is `2^64 − 16`, the wrapped `uint64` guard
`offset+32 > uint64(len(data))` of `decodeDynamicBytes` passes (the sum
wraps to 16), yet the very next slice `data[offset : offset+32]` is out of
bounds, so the Go code panics instead of returning a decoded event — the
total Lean model, which clamps instead, still returns one. -/
theorem decode_error_iff_and_wrapped_offset_panic :
    (∀ (s : Schema) (log : Log),
      (decode s log = .error .noTopics ↔ log.topics = [])
      ∧ (decode s log = .error .unknownSignature ↔
          (log.topics ≠ [] ∧ schemaLookup s (log.topics.headD []) = none)))
    ∧ beNat panicData % w64 = w64 - 16
    ∧ goDynGuardPasses panicData.length (beNat panicData % w64) = true
    ∧ goSliceInBounds panicData.length (beNat panicData % w64)
        ((beNat panicData % w64 + 32) % w64) = false
    ∧ (∃ ev, decode panicSchema panicLog = .ok ev) := by
  refine ⟨?_, by decide, by decide, by decide, ⟨decodeOr panicSchema panicLog, rfl⟩⟩
  intro s log
  by_cases h : log.topics = []
  · constructor
    · simp [decode, h]
    · constructor
      · intro hd
        simp [decode, h] at hd
      · intro hd
        exact absurd h hd.1
  · cases hl : schemaLookup s (log.topics.headD []) with
    | none =>
      simp only [List.headD_eq_head?_getD] at hl
      constructor
      · simp only [decode, List.headD_eq_head?_getD]
        rw [if_neg h, hl]
        simp [h]
      · constructor
        · intro _
          exact ⟨h, rfl⟩
        · intro _
          simp only [decode, List.headD_eq_head?_getD]
          rw [if_neg h, hl]
    | some d =>
      simp only [List.headD_eq_head?_getD] at hl
      constructor
      · simp only [decode, List.headD_eq_head?_getD]
        rw [if_neg h, hl]
        simp [h]
      · constructor
        · intro hd
          simp only [decode, List.headD_eq_head?_getD] at hd
          rw [if_neg h, hl] at hd
          simp at hd
        · intro hd
          exact absurd hd.2 (by simp)

/-- Witness for C5: the error-iff clauses instantiated at the empty schema
and the empty log. -/
theorem decode_error_iff_and_wrapped_offset_panic_witness :
    (decode [] { topics := [], data := [] } = .error .noTopics
        ↔ ([] : List (List Nat)) = [])
    ∧ (decode [] { topics := [], data := [] } = .error .unknownSignature
        ↔ (([] : List (List Nat)) ≠ []
            ∧ schemaLookup [] (([] : List (List Nat)).headD []) = none)) :=
  decode_error_iff_and_wrapped_offset_panic.1 [] { topics := [], data := [] }

end SonarSpec
